import Mathlib

/-!
# Verification of the `scraper` stream scanner and its configuration layer

This file gives a shallow embedding of the core of the `scraper` repository
(`src/lib/scraper.js`, `src/lib/ScraperOpts.js`, `src/lib/helpers.js`) and
proves or refutes the frozen claims about it.

JS strings are modelled as `List Char` (the code treats the response as a
sequence of UTF-16 units; byte/char distinctions never matter for the scanned
logic).  JS `Map`s and plain objects are modelled as association lists, JS
numbers used as counters/sizes as `Nat`/`Int`.
-/

deriving instance DecidableEq for Except

/-! ## String helpers -/

/-- JS whitespace (the characters relevant to `trim` / `\s` here; the full JS
class also has exotic Unicode spaces, which never occur in the inputs this
development reasons about). -/
def isJsWs (c : Char) : Bool :=
  c = ' ' || c = '\t' || c = '\n' || c = '\r' || c = Char.ofNat 11 || c = Char.ofNat 12

/-- `String.prototype.trim` (left side). -/
def trimLeft (s : List Char) : List Char := s.dropWhile isJsWs

/-- `String.prototype.trim` (right side). -/
def trimRight (s : List Char) : List Char := (s.reverse.dropWhile isJsWs).reverse

/-- `String.prototype.trim`. -/
def jsTrim (s : List Char) : List Char := trimRight (trimLeft s)

/-- Lower-cases a string (models the `/i` regex flag on ASCII patterns). -/
def lowerStr (s : List Char) : List Char := s.map Char.toLower

/-- Smallest index `i` with `tok` a prefix of `s.drop i` (full occurrence inside `s`). -/
def idxOfAux (tok : List Char) : List Char → Option Nat
  | [] => if tok.isPrefixOf ([] : List Char) then some 0 else none
  | c :: s => if tok.isPrefixOf (c :: s) then some 0 else (idxOfAux tok s).map (· + 1)

/-- JS `haystack.indexOf(needle, from)` for a non-negative, clamped `from`,
returning `none` for `-1`.  (Only ever used with a nonempty `needle`.) -/
def idxOfFrom (s tok : List Char) (start : Nat) : Option Nat :=
  (idxOfAux tok (s.drop start)).map (· + start)

/-- JS `s.substr(i)` for a possibly negative `i`: a negative start counts from
the end of the string (clamped at 0), a non-negative start drops that many
characters.  In particular `substr(0)` returns the whole string. -/
def jsSubstrFrom (s : List Char) (i : Int) : List Char :=
  if i < 0 then s.drop (max ((s.length : Int) + i) 0).toNat else s.drop i.toNat

/-! ## The stream scanner (`_processChunk` in `src/lib/scraper.js`)

Two modes, exactly as in the source: when a start or stop token is
configured, the token scanner (`scraper.js:134-188`); otherwise the plain
byte counter (`scraper.js:190-205`). -/

/-- The configuration the scanner closure captures (`scraper.js:116-121`).
`cbs` is the *effective* chunk buffer size
`Math.max(opts.chunkBufferSize, startTokenLength, stopTokenLength)` and
`maxSize` the *effective* budget `opts.maxBytes || DEFAULT_MAX_SIZE`. -/
structure ScanCfg where
  startToken : List Char
  stopToken : List Char
  startIncluded : Bool
  stopIncluded : Bool
  cbs : Nat
  maxSize : Nat
  deriving Repr, DecidableEq

/-- The mutable closure state of the token scanner:
`_isRequestDestroyed`, `isStartTokenFound`, `minStopTokenIndexInAllHtml`,
`bufferedData`, `retHtml`. -/
structure ScanState where
  destroyed : Bool
  startFound : Bool
  minStop : Int
  buf : List Char
  ret : List Char
  deriving Repr, DecidableEq

/-- `scraper.js:123-126`: initial closure state. -/
def initState (cfg : ScanCfg) : ScanState :=
  { destroyed := false, startFound := cfg.startToken.isEmpty, minStop := 0,
    buf := [], ret := [] }

/-- `scraper.js:181-187`: the tail of a processing pass — the byte-budget
check (`retHtml.length` vs `maxHtmlSize`, truncating on excess) followed by
`_destroyRequest()` when the budget is met. -/
def budgetStep (cfg : ScanCfg) (d0 : Bool) (ms : Int) (ret2 : List Char) : ScanState :=
  if ret2.length < cfg.maxSize then
    { destroyed := d0, startFound := true, minStop := ms, buf := [], ret := ret2 }
  else
    { destroyed := true, startFound := true, minStop := ms, buf := [],
      ret := ret2.take cfg.maxSize }

/-- `scraper.js:168-187`: the part of a processing pass after the start-token
block: `retHtml += bufferedData; bufferedData = ''`, then the stop-token
search (with hit truncating to `min(stopTokenIndex + endOffset, maxHtmlSize)`
and destroying, and miss advancing `minStopTokenIndexInAllHtml` to
`retHtml.length - stopTokenLength`), then the byte-budget check. -/
def afterStartStep (cfg : ScanCfg) (d0 : Bool) (ms1 : Int) (ret1 buf1 : List Char) :
    ScanState :=
  let ret2 := ret1 ++ buf1
  if cfg.stopToken ≠ [] then
    match idxOfFrom ret2 cfg.stopToken ms1.toNat with
    | some j =>
      let endOff := if cfg.stopIncluded then cfg.stopToken.length else 0
      { destroyed := true, startFound := true, minStop := ms1, buf := [],
        ret := ret2.take (min (j + endOff) cfg.maxSize) }
    | none =>
      budgetStep cfg d0 ((ret2.length : Int) - (cfg.stopToken.length : Int)) ret2
  else budgetStep cfg d0 ms1 ret2

/-- One invocation of the token-mode `_processChunk` (`scraper.js:136-188`). -/
def processChunk (cfg : ScanCfg) (st : ScanState) (chunk : List Char)
    (force : Bool) : ScanState :=
  if st.destroyed = true ∧ st.buf = [] then st
  else
    let buf0 := st.buf ++ chunk
    if buf0.length < cfg.cbs ∧ force = false then { st with buf := buf0 }
    else if st.startFound = false ∧ (idxOfFrom buf0 cfg.startToken 0).isNone then
      -- start token not found: `bufferedData = bufferedData.substr(1 - startTokenLength)`
      { st with buf := jsSubstrFrom buf0 (1 - (cfg.startToken.length : Int)) }
    else
      -- past the start-token block (`scraper.js:153-166`)
      let buf1 : List Char :=
        if st.startFound then buf0
        else match idxOfFrom buf0 cfg.startToken 0 with
          | some i => buf0.drop (i + cfg.startToken.length)
          | none => buf0
      let ret1 : List Char :=
        if st.startFound then st.ret
        else if cfg.startIncluded then cfg.startToken else st.ret
      let ms1 : Int :=
        if st.startFound then st.minStop
        else if cfg.startIncluded then (cfg.startToken.length : Int) else st.minStop
      afterStartStep cfg st.destroyed ms1 ret1 buf1

/-- `_doResolve` (`scraper.js:207-223`): the forced final flush applied at
stream end when `bufferedData` still holds unscanned bytes. -/
def finishScan (cfg : ScanCfg) (st : ScanState) : ScanState :=
  if st.buf = [] then st else processChunk cfg st [] true

/-- Feeding a whole chunk sequence to the token scanner and reading the result. -/
def runToken (cfg : ScanCfg) (chunks : List (List Char)) : List Char :=
  (finishScan cfg (chunks.foldl (fun s c => processChunk cfg s c false) (initState cfg))).ret

/-- Closure state of the no-token byte counter (`scraper.js:190-205`). -/
structure ByteState where
  destroyed : Bool
  remaining : Int
  ret : List Char
  deriving Repr, DecidableEq

/-- One invocation of the no-token `_processChunk` (`scraper.js:193-204`).
Note the source's `retHtml = chunkData.substring(0, -remainingChars)` —
an assignment of a slice of the *current chunk*, not an append. -/
def processChunkBytes (st : ByteState) (chunk : List Char) : ByteState :=
  if st.destroyed = true then st
  else
    let rem := st.remaining - (chunk.length : Int)
    if rem ≤ 0 then
      { destroyed := true, remaining := rem, ret := chunk.take (-rem).toNat }
    else
      { st with remaining := rem, ret := st.ret ++ chunk }

/-- Running the byte-counter scanner (its `bufferedData` is always empty, so
`_doResolve` performs no flush). -/
def runBytes (maxSize : Nat) (chunks : List (List Char)) : List Char :=
  (chunks.foldl processChunkBytes
    { destroyed := false, remaining := (maxSize : Int), ret := [] }).ret

/-- `scraper.js:121`: `opts.maxBytes || DEFAULT_MAX_SIZE` (10 MiB default). -/
def effectiveMaxSize (maxBytes : Nat) : Nat := if maxBytes = 0 then 10485760 else maxBytes

/-- `scraper.js:120`: effective chunk buffer size. -/
def effectiveCbs (chunkBufferSize startLen stopLen : Nat) : Nat :=
  max chunkBufferSize (max startLen stopLen)

/-- The full per-response scan (`scraper.js:134-205` mode selection plus the
final flush): token scanner when a start or stop token is configured,
byte counter otherwise. -/
def scanOutput (cfg : ScanCfg) (chunks : List (List Char)) : List Char :=
  if cfg.startToken = [] ∧ cfg.stopToken = [] then runBytes cfg.maxSize chunks
  else runToken cfg chunks

/-- Splitting a body into 1-byte chunks. -/
def oneByteChunks (body : List Char) : List (List Char) := body.map (fun c => [c])

/-- The seed the scanner plants into `retHtml` when it finds an included
start token (`scraper.js:157-160`). -/
def seedOf (cfg : ScanCfg) : List Char :=
  if cfg.startToken ≠ [] ∧ cfg.startIncluded then cfg.startToken else []

/-- The closed form a whole-body token-mode scan computes when the byte
budget stays out of play (established by theorems below, never assumed):
locate the first start-token occurrence, then the first stop-token
occurrence at or after the seed region. -/
def tokenScanSpec (cfg : ScanCfg) (body : List Char) : List Char :=
  let rest? : Option (List Char) :=
    if cfg.startToken = [] then some body
    else (idxOfFrom body cfg.startToken 0).map (fun i => body.drop (i + cfg.startToken.length))
  match rest? with
  | none => []
  | some rest =>
    if cfg.stopToken = [] then seedOf cfg ++ rest
    else match idxOfFrom (seedOf cfg ++ rest) cfg.stopToken (seedOf cfg).length with
      | some j =>
        (seedOf cfg ++ rest).take (j + (if cfg.stopIncluded then cfg.stopToken.length else 0))
      | none => seedOf cfg ++ rest

/-- `rest` is what remains of the stream prefix `p` after the start-token cut
(`p` itself when no start token is configured). -/
def AfterStart (cfg : ScanCfg) (p rest : List Char) : Prop :=
  (cfg.startToken = [] ∧ rest = p) ∨
  (cfg.startToken ≠ [] ∧ ∃ i, idxOfFrom p cfg.startToken 0 = some i ∧
    rest = p.drop (i + cfg.startToken.length))

/-- The simulation invariant tying a scanner state to the stream prefix `p`
it has consumed (used to prove the chunking-independence theorem).  Three
phases: still searching for the start token (with the clipped buffer a
drop of `p` whose dropped positions hold no full start-token occurrence);
start found and live (output plus buffer reassemble the seeded
continuation, no stop-token occurrence in the output, sound search floor);
destroyed (the final output is already determined whatever arrives). -/
def ScanInv (cfg : ScanCfg) (st : ScanState) (p : List Char) : Prop :=
  (cfg.startToken ≠ [] ∧ st.startFound = false ∧ st.destroyed = false ∧
    st.ret = [] ∧ st.minStop = 0 ∧
    ∃ d, d ≤ p.length ∧ st.buf = p.drop d ∧
      ∀ m, m < d → m + cfg.startToken.length ≤ p.length ∧ ¬ cfg.startToken <+: p.drop m) ∨
  (st.startFound = true ∧ st.destroyed = false ∧
    ∃ rest r, AfterStart cfg p rest ∧ r ≤ rest.length ∧
      st.ret = seedOf cfg ++ rest.take r ∧ st.buf = rest.drop r ∧
      (cfg.stopToken ≠ [] →
        (∀ m, ¬ cfg.stopToken <+: st.ret.drop m) ∧
        (st.minStop ≤ (st.ret.length : Int) - (cfg.stopToken.length : Int) ∨ st.minStop ≤ 0))) ∨
  (st.destroyed = true ∧ st.buf = [] ∧
    ∀ f : List Char, tokenScanSpec cfg (p ++ f) = st.ret)

/-- `Except` success as a boolean (JS: the setter returned normally rather
than throwing). -/
def exceptAccepted {ε α : Type} : Except ε α → Bool
  | .ok _ => true
  | .error _ => false

/-! ## `src/lib/helpers.js`: wget-style header parsing -/

/-- `[a-z0-9]` (the name character classes; the `/i` flag is handled by
lowering the candidate first). -/
def isAlnumLower (c : Char) : Bool := ('a' ≤ c && c ≤ 'z') || ('0' ≤ c && c ≤ '9')

/-- `[a-z0-9-]`. -/
def isNameChar (c : Char) : Bool := isAlnumLower c || c = '-'

/-- The `[a-z0-9]+?-[a-z0-9-]+?` alternative of `HTTP_HEADER_LINE_REGEX`
applied to an (already lowered) candidate name: a nonempty alphanumeric run,
a hyphen, then a nonempty run of alphanumerics/hyphens. -/
def hyphenNameMatches (n : List Char) : Bool :=
  let pre := n.takeWhile isAlnumLower
  let rest := n.drop pre.length
  !pre.isEmpty &&
    (match rest with
      | '-' :: bs => !bs.isEmpty && bs.all isNameChar
      | _ => false)

/-- The name group of `HTTP_HEADER_LINE_REGEX` (`helpers.js:10`):
`Cookie|Authorization|Accept|[a-z0-9]+?-[a-z0-9-]+?`, case-insensitive. -/
def nameMatches (n : List Char) : Bool :=
  let l := lowerStr n
  l == "cookie".toList || l == "authorization".toList || l == "accept".toList ||
    hyphenNameMatches l

/-- Declarative reading of the name group of `HTTP_HEADER_LINE_REGEX`: the
lowered name is one of the three whitelisted words, or decomposes as a
nonempty alphanumeric run, a hyphen, and a nonempty run of
alphanumerics/hyphens.  (Case-insensitivity lives in the `lowerStr`.) -/
def HeaderNameSpec (n : List Char) : Prop :=
  ((lowerStr n = "cookie".toList ∨ lowerStr n = "authorization".toList) ∨
    lowerStr n = "accept".toList) ∨
  (∃ a b, (∀ c ∈ a, isAlnumLower c = true) ∧ a ≠ [] ∧ b ≠ [] ∧
    (∀ c ∈ b, isNameChar c = true) ∧ lowerStr n = a ++ '-' :: b)

/-- Splits a line at its first colon, `none` when there is no colon. -/
def splitAtFirstColon : List Char → Option (List Char × List Char)
  | [] => none
  | c :: cs =>
    if c = ':' then some ([], cs)
    else (splitAtFirstColon cs).map (fun p => (c :: p.1, p.2))

/-- One line against `HTTP_HEADER_LINE_REGEX`
`/^\s*(Cookie|Authorization|Accept|[a-z0-9]+?-[a-z0-9-]+?)\s*:\s*([^"]+?)\s*$/i`:
the name (everything before the first colon, trimmed) must match the name
group, the value (everything after it, trimmed) must be nonempty and, since
its character class is `[^"]`, must contain no double quote. -/
def parseHeaderLine (line : List Char) : Option (List Char × List Char) :=
  match splitAtFirstColon line with
  | none => none
  | some p =>
    if nameMatches (jsTrim p.1) && !(jsTrim p.2).isEmpty && !(jsTrim p.2).contains '"'
    then some (jsTrim p.1, jsTrim p.2)
    else none

/-- `'Invalid header line: "' + line + '"'` (`helpers.js:26`). -/
def headerErrMsg (line : List Char) : List Char :=
  "Invalid header line: \"".toList ++ line ++ "\"".toList

/-- JS object insertion `target[name] = value`: overwrite an existing key in
place, else append. -/
def objSet (obj : List (List Char × List Char)) (k v : List Char) :
    List (List Char × List Char) :=
  if obj.any (fun p => p.1 == k) then obj.map (fun p => if p.1 == k then (k, v) else p)
  else obj ++ [(k, v)]

/-- `headersStr.split('\n')`. -/
def splitOnNl : List Char → List (List Char)
  | [] => [[]]
  | c :: cs =>
    if c = '\n' then [] :: splitOnNl cs
    else match splitOnNl cs with
      | [] => [[c]]
      | l :: ls => (c :: l) :: ls

/-- The loop of `parseWgetHeadersInto` (`helpers.js:21-29`): skip blank lines,
store each valid line, fail on the first invalid one naming it. -/
def parseWgetHeadersAux : List (List Char) → List (List Char × List Char) →
    Except (List Char) (List (List Char × List Char))
  | [], acc => .ok acc
  | l :: ls, acc =>
    if l = [] then parseWgetHeadersAux ls acc
    else match parseHeaderLine l with
      | some p => parseWgetHeadersAux ls (objSet acc p.1 p.2)
      | none => .error (headerErrMsg l)

/-- `parseWgetHeadersInto` (`helpers.js:17-31`) on a string input, starting
from an empty target: `headersStr.replaceAll('\r','').split('\n').map(trim)`,
then the line loop.  (For an empty string the JS early-return and the loop
agree: no headers.) -/
def parseWgetHeaders (headersStr : List Char) :
    Except (List Char) (List (List Char × List Char)) :=
  parseWgetHeadersAux ((splitOnNl (headersStr.filter (fun c => c ≠ '\r'))).map jsTrim) []

/-! ## `src/lib/ScraperOpts.js` -/

/-- `^https?:\/\/.*` — the string starts with `http://` or `https://`. -/
def httpOrHttpsUrlMatches (s : List Char) : Bool :=
  "http://".toList.isPrefixOf s || "https://".toList.isPrefixOf s

/-- Suffix matching one trailing regex wildcard: `s` ends with `pat` followed
by exactly one character (any character except newline). -/
def endsWithPatDot (pat s : List Char) : Bool :=
  match s.getLast? with
  | none => false
  | some c => decide (c ≠ '\n') && pat.isSuffixOf s.dropLast

/-- `UNSUPPORTED_FILENAMES_REGEX = /\.(jpe?g|png|gif.?|mp.|avi|web.)$/i`
(`ScraperOpts.js:3`), matched against the whole url string. -/
def unsupportedFilenamesMatches (s : List Char) : Bool :=
  let t := lowerStr s
  ".jpg".toList.isSuffixOf t || ".jpeg".toList.isSuffixOf t ||
  ".png".toList.isSuffixOf t ||
  ".gif".toList.isSuffixOf t || endsWithPatDot ".gif".toList t ||
  endsWithPatDot ".mp".toList t ||
  ".avi".toList.isSuffixOf t ||
  endsWithPatDot ".web".toList t

/-- `_assertValidUrl` (`ScraperOpts.js:13-27`): the url is accepted iff it is
a string (always, here), passes `HTTP_OR_HTTPS_URL_REGEX`, fails
`UNSUPPORTED_FILENAMES_REGEX`, and `new URL(urlString)` does not throw — the
WHATWG parser is abstracted by the oracle `parses`.  Anything else raises
`Invalid url`. -/
def assertValidUrlOk (urlString : List Char) (parses : Bool) : Bool :=
  httpOrHttpsUrlMatches urlString && !unsupportedFilenamesMatches urlString && parses

/-- Declarative reading of `UNSUPPORTED_FILENAMES_REGEX`: the lowered URL
string ends in one of the literal extensions, or in `.gif`/`.mp`/`.web`
followed by exactly one extra (non-newline) character. -/
def MediaSuffixSpec (s : List Char) : Prop :=
  ((((((
    (∃ u, u ++ ".jpg".toList = lowerStr s) ∨ (∃ u, u ++ ".jpeg".toList = lowerStr s)) ∨
    (∃ u, u ++ ".png".toList = lowerStr s)) ∨
    (∃ u, u ++ ".gif".toList = lowerStr s)) ∨
    (∃ u c, c ≠ '\n' ∧ lowerStr s = u ++ ".gif".toList ++ [c])) ∨
    (∃ u c, c ≠ '\n' ∧ lowerStr s = u ++ ".mp".toList ++ [c])) ∨
    (∃ u, u ++ ".avi".toList = lowerStr s)) ∨
  (∃ u c, c ≠ '\n' ∧ lowerStr s = u ++ ".web".toList ++ [c])

/-- The fields of `ScraperOpts` relevant to the claims, with the constructor's
default values (`ScraperOpts.js:32-54`).  `origin` carries `this.url.origin`
for relative-redirect resolution. -/
structure ScraperOptsM where
  url : List Char
  origin : List Char
  chunkBufferSize : Nat := 6000
  timeout : Nat := 5000
  startToken : List Char := []
  isStartTokenIncluded : Bool := true
  stopToken : List Char := []
  isStopTokenIncluded : Bool := false
  compact : Bool := false
  maxBytes : Nat := 0
  restrictRequestFrequency : Bool := true
  maxRedirects : Nat := 0
  totalRedirects : Nat := 0
  deriving Repr, DecidableEq

/-- `new ScraperOpts(url)`: all defaults (url validation is `assertValidUrlOk`
and orthogonal to the numeric defaults modelled here). -/
def mkScraperOpts (url origin : List Char) : ScraperOptsM := { url := url, origin := origin }

/-- `withMaxRedirects` (`ScraperOpts.js:178-184`): rejects `max <= 0 || max >= 5`.
JS numbers used for this setter are modelled as integers. -/
def withMaxRedirects (o : ScraperOptsM) (m : Int) : Except (List Char) ScraperOptsM :=
  if m ≤ 0 ∨ 5 ≤ m then .error "Illegal value for maxRedirects".toList
  else .ok { o with maxRedirects := m.toNat }

/-- Decimal digit character (the modelled `maxRedirects` is always < 10). -/
def digitChar (n : Nat) : Char := Char.ofNat (48 + n)

/-- `Redirect limit exceeded (${this.maxRedirects})` (`ScraperOpts.js:229`). -/
def redirectLimitMsg (m : Nat) : List Char :=
  "Redirect limit exceeded (".toList ++ [digitChar m] ++ ")".toList

/-- `new Error('Invalid url')` (`ScraperOpts.js:24`). -/
def invalidUrlMsg : List Char := "Invalid url".toList

/-- `updateForRedirect` (`ScraperOpts.js:227-233`): budget check first, then
re-validation of the (origin-resolved) redirect target, then hop increment. -/
def updateForRedirect (o : ScraperOptsM) (redirectUrl : List Char) (parses : Bool) :
    Except (List Char) ScraperOptsM :=
  if o.maxRedirects ≤ o.totalRedirects then .error (redirectLimitMsg o.maxRedirects)
  else
    let target := (if redirectUrl.head? = some '/' then o.origin else []) ++ redirectUrl
    if assertValidUrlOk target parses then
      .ok { o with url := target, totalRedirects := o.totalRedirects + 1 }
    else .error invalidUrlMsg

/-! ## Rate limiter and request preflight (`src/lib/scraper.js:10-46,55-91`) -/

def MAXIMUM_REQUEST_FREQUENCY_PER_HOST_IN_MILLIS : Nat := 3000

/-- `Map.get`. -/
def lookupHost (table : List (List Char × Nat)) (host : List Char) : Option Nat :=
  (table.find? (fun p => p.1 == host)).map (fun p => p.2)

/-- `Map.set`. -/
def setHost (table : List (List Char × Nat)) (host : List Char) (v : Nat) :
    List (List Char × Nat) :=
  if table.any (fun p => p.1 == host) then
    table.map (fun p => if p.1 == host then (p.1, v) else p)
  else table ++ [(host, v)]

/-- `validateRequestToHostFrequency` (`scraper.js:27-46`): allowed iff the
stored next-allowed instant (defaulting to `now`, with `|| now` treating a
stored 0 as absent) is `<= now`; on success the next window is reserved;
either way entries whose instant has passed are evicted. -/
def validateRequestToHostFrequency (table : List (List Char × Nat)) (host : List Char)
    (now : Nat) : Bool × List (List Char × Nat) :=
  let nextAllowedTime :=
    match lookupHost table host with
    | some t => if t = 0 then now else t
    | none => now
  let isAllowed := nextAllowedTime ≤ now
  let table1 :=
    if isAllowed then setHost table host (now + MAXIMUM_REQUEST_FREQUENCY_PER_HOST_IN_MILLIS)
    else table
  (isAllowed, table1.filter (fun p => decide (now ≤ p.2)))

/-- Outcome of the synchronous head of the `_requestHtml` executor. -/
structure PreflightOutcome where
  rejectedEarly : Bool
  exchangeIssued : Bool
  table : List (List Char × Nat)
  deriving Repr, DecidableEq

/-- The head of the `_requestHtml` executor (`scraper.js:55-91,239`): the
rate-limit gate (line 68-70) calls `reject('Too frequent requests')` when a
gated request is not allowed, but there is no `return` after the `reject`,
so control always falls through to `httpOrHttps.request(...)` and
`_request.end()` — the HTTP exchange is issued unconditionally. -/
def requestPreflight (isRedirect restrictRequestFrequency : Bool)
    (table : List (List Char × Nat)) (host : List Char) (now : Nat) : PreflightOutcome :=
  if isRedirect = false ∧ restrictRequestFrequency = true then
    let r := validateRequestToHostFrequency table host now
    { rejectedEarly := !r.1, exchangeIssued := true, table := r.2 }
  else
    { rejectedEarly := false, exchangeIssued := true, table := table }

/-! ## The redirect-following fetch (`src/lib/scraper.js:91-106`) -/

/-- Abstract server response: a `location` header, an HTML body delivered as
chunks, or some other content type. -/
inductive RespM where
  | redirect (location : List Char)
  | html (chunks : List (List Char))
  | other (contentType : List Char)

/-- The redirect recursion of `_requestHtml` (`scraper.js:91-106`): a
`location` header triggers `res.destroy()`, `opts.updateForRedirect` (whose
exception rejects the fetch) and recursion on the same opts object; an HTML
response is scanned; any other content type is rejected.  `parses` abstracts
`new URL` on redirect targets; `fuel` only bounds the recursion (the
theorems always supply enough). -/
def fetchModel (cfg : ScanCfg) (server : List Char → RespM) (parses : Bool) :
    ScraperOptsM → Nat → Except (List Char) (List Char)
  | _, 0 => .error "out of fuel".toList
  | o, fuel + 1 =>
    match server o.url with
    | .redirect loc =>
      match updateForRedirect o loc parses with
      | .error e => .error e
      | .ok o' => fetchModel cfg server parses o' fuel
    | .html chunks => .ok (scanOutput cfg chunks)
    | .other ct => .error ("Unsupported content type ".toList ++ ct)

/-- A redirect chain of length `n`: urls are length-coded
(`http://h/`, `http://h/a`, `http://h/aa`, …); every url before the `n`-th
redirects to the next one, the `n`-th serves an HTML body. -/
def chainUrl (i : Nat) : List Char := "http://h/".toList ++ List.replicate i 'a'

def chainServer (n : Nat) (body : List (List Char)) (u : List Char) : RespM :=
  if u = chainUrl n then .html body else .redirect (chainUrl (u.length - 9 + 1))

/-! ## Concrete configurations used by individual claims -/

/-- A no-token configuration with `maxBytes = 10` (all other knobs at the
constructor defaults). -/
def byteCounterCfg10 : ScanCfg :=
  { startToken := [], stopToken := [], startIncluded := true, stopIncluded := false,
    cbs := effectiveCbs 6000 0 0, maxSize := effectiveMaxSize 10 }

/-- Stop token `"ab"`, no start token, `maxBytes = 10`,
`chunkBufferSize = 0` (effective 2). -/
def chunkDepCfg : ScanCfg :=
  { startToken := [], stopToken := ['a', 'b'], startIncluded := true, stopIncluded := false,
    cbs := effectiveCbs 0 0 2, maxSize := effectiveMaxSize 10 }

def chunkDepBody : List Char := "cccccccccab".toList

/-- Length-1 start token `"x"`. -/
def lenOneStartCfg : ScanCfg :=
  { startToken := ['x'], stopToken := [], startIncluded := false, stopIncluded := false,
    cbs := effectiveCbs 2 1 0, maxSize := effectiveMaxSize 100 }

/-- Length-2 start token `"ab"`, small buffer. -/
def twoStartCfg : ScanCfg :=
  { startToken := ['a', 'b'], stopToken := [], startIncluded := false, stopIncluded := false,
    cbs := effectiveCbs 1 2 0, maxSize := effectiveMaxSize 100 }

/-- Stop token `"ab"`, no start token, large budget. -/
def stopFloorCfg : ScanCfg :=
  { startToken := [], stopToken := ['a', 'b'], startIncluded := true, stopIncluded := false,
    cbs := effectiveCbs 2 0 2, maxSize := effectiveMaxSize 100 }

/-- Stop token `"xy"`, no start token, comfortable budget (a configuration
in the chunking-independent regime). -/
def indepCfg : ScanCfg :=
  { startToken := [], stopToken := ['x', 'y'], startIncluded := false, stopIncluded := false,
    cbs := effectiveCbs 2 0 2, maxSize := effectiveMaxSize 100 }

/-- The default scan configuration of a fresh `ScraperOpts` (no tokens,
default buffer and budget). -/
def plainCfg : ScanCfg :=
  { startToken := [], stopToken := [], startIncluded := true, stopIncluded := false,
    cbs := effectiveCbs 6000 0 0, maxSize := effectiveMaxSize 0 }

/-- A tiny HTML body served at the end of the redirect chains. -/
def demoBody : List (List Char) := [['h', 'i']]

/-! # Theorems -/

/-! ## Search-index lemmas -/

theorem idxOfAux_some (tok : List Char) :
    ∀ (s : List Char) (i : Nat), idxOfAux tok s = some i →
      tok <+: s.drop i ∧ ∀ j, j < i → ¬ tok <+: s.drop j := by
  intro s
  induction s with
  | nil =>
    intro i h
    simp only [idxOfAux] at h
    split at h
    · rename_i hp
      cases h
      refine ⟨by simpa using hp, ?_⟩
      intro j hj
      omega
    · cases h
  | cons c s ih =>
    intro i h
    simp only [idxOfAux] at h
    split at h
    · rename_i hp
      cases h
      refine ⟨by simpa using hp, ?_⟩
      intro j hj
      omega
    · rename_i hp
      rcases Option.map_eq_some'.mp h with ⟨i', hi', rfl⟩
      rcases ih i' hi' with ⟨h1, h2⟩
      refine ⟨by simpa using h1, ?_⟩
      intro j hj
      cases j with
      | zero => simpa using hp
      | succ j' =>
        have := h2 j' (by omega)
        simpa using this

theorem idxOfAux_none (tok : List Char) :
    ∀ (s : List Char), idxOfAux tok s = none → ∀ j, ¬ tok <+: s.drop j := by
  intro s
  induction s with
  | nil =>
    intro h j
    simp only [idxOfAux] at h
    split at h
    · cases h
    · rename_i hp
      intro hc
      rw [List.drop_nil] at hc
      exact hp (by simpa using hc)
  | cons c s ih =>
    intro h j
    simp only [idxOfAux] at h
    split at h
    · cases h
    · rename_i hp
      intro hc
      cases j with
      | zero =>
        exact hp (by simpa using hc)
      | succ j' =>
        have hnone : idxOfAux tok s = none := by
          cases hx : idxOfAux tok s with
          | none => rfl
          | some v => rw [hx] at h; simp at h
        exact ih hnone j' (by simpa using hc)

theorem idxOfAux_eq_some_of (tok s : List Char) (i : Nat)
    (h1 : tok <+: s.drop i) (h2 : ∀ j, j < i → ¬ tok <+: s.drop j) :
    idxOfAux tok s = some i := by
  cases hx : idxOfAux tok s with
  | none => exact absurd h1 (idxOfAux_none tok s hx i)
  | some i' =>
    rcases idxOfAux_some tok s i' hx with ⟨g1, g2⟩
    rcases Nat.lt_trichotomy i' i with hlt | heq | hgt
    · exact absurd g1 (h2 i' hlt)
    · rw [heq]
    · exact absurd h1 (g2 i hgt)

theorem idxOfAux_le (tok : List Char) :
    ∀ (s : List Char) (i : Nat), idxOfAux tok s = some i → i ≤ s.length := by
  intro s
  induction s with
  | nil =>
    intro i h
    simp only [idxOfAux] at h
    split at h
    · cases h; simp
    · cases h
  | cons c s ih =>
    intro i h
    simp only [idxOfAux] at h
    split at h
    · cases h; simp
    · rcases Option.map_eq_some'.mp h with ⟨i', hi', rfl⟩
      have := ih i' hi'
      simp
      omega

theorem idxOfFrom_some (s tok : List Char) (f i : Nat) :
    idxOfFrom s tok f = some i →
      f ≤ i ∧ tok <+: s.drop i ∧ ∀ j, f ≤ j → j < i → ¬ tok <+: s.drop j := by
  intro h
  simp only [idxOfFrom] at h
  rcases Option.map_eq_some'.mp h with ⟨i', hi', hadd⟩
  rcases idxOfAux_some tok (s.drop f) i' hi' with ⟨g1, g2⟩
  rw [List.drop_drop] at g1
  refine ⟨by omega, ?_, ?_⟩
  · have he : i' + f = i := hadd
    rw [← he]
    rw [Nat.add_comm] at g1
    exact g1
  · intro j hf hj
    have := g2 (j - f) (by omega)
    rw [List.drop_drop] at this
    have he : j - f + f = j := by omega
    rw [Nat.add_comm f (j - f), he] at this
    exact this

theorem idxOfFrom_none (s tok : List Char) (f : Nat) :
    idxOfFrom s tok f = none → ∀ j, f ≤ j → ¬ tok <+: s.drop j := by
  intro h j hf
  simp only [idxOfFrom, Option.map_eq_none'] at h
  have := idxOfAux_none tok (s.drop f) h (j - f)
  rw [List.drop_drop] at this
  have he : j - f + f = j := by omega
  rw [Nat.add_comm f (j - f), he] at this
  exact this

theorem idxOfFrom_zero_some (s tok : List Char) (i : Nat) :
    idxOfFrom s tok 0 = some i →
      tok <+: s.drop i ∧ ∀ j, j < i → ¬ tok <+: s.drop j := by
  intro h
  have := idxOfFrom_some s tok 0 i h
  exact ⟨this.2.1, fun j hj => this.2.2 j (Nat.zero_le j) hj⟩

theorem idxOfFrom_zero_none (s tok : List Char) :
    idxOfFrom s tok 0 = none → ∀ j, ¬ tok <+: s.drop j := by
  intro h j
  exact idxOfFrom_none s tok 0 h j (Nat.zero_le j)

theorem idxOfFrom_zero_bound (s tok : List Char) (i : Nat)
    (h : idxOfFrom s tok 0 = some i) :
    i + tok.length ≤ s.length := by
  have h1 := (idxOfFrom_zero_some s tok i h).1
  have h2 : i ≤ s.length := by
    simp only [idxOfFrom, List.drop_zero] at h
    rcases Option.map_eq_some'.mp h with ⟨i', hi', hadd⟩
    have := idxOfAux_le tok s i' hi'
    omega
  have h3 := h1.length_le
  simp only [List.length_drop] at h3
  omega

/-- A full occurrence strictly inside `s` is unaffected by appending data. -/
theorem prefix_drop_append_iff (tok s t : List Char) (m : Nat)
    (h : m + tok.length ≤ s.length) :
    tok <+: (s ++ t).drop m ↔ tok <+: s.drop m := by
  have hm : m ≤ s.length := by omega
  rw [List.drop_append_of_le_length hm]
  constructor
  · intro hp
    rw [List.prefix_iff_eq_take] at hp ⊢
    rw [List.take_append_of_le_length (by simp; omega)] at hp
    exact hp
  · intro hp
    exact hp.trans (List.prefix_append _ _)

/-- An occurrence found by a scan of a prefix is stable: it stays the first
occurrence after more data arrives. -/
theorem idxOfFrom_zero_append (s t tok : List Char) (i : Nat)
    (h : idxOfFrom s tok 0 = some i) :
    idxOfFrom (s ++ t) tok 0 = some i := by
  rcases idxOfFrom_zero_some s tok i h with ⟨h1, h2⟩
  have hroom : i + tok.length ≤ s.length := idxOfFrom_zero_bound s tok i h
  simp only [idxOfFrom, List.drop_zero]
  have e : idxOfAux tok (s ++ t) = some i := by
    apply idxOfAux_eq_some_of
    · exact (prefix_drop_append_iff tok s t i hroom).mpr h1
    · intro j hj
      have hroomj : j + tok.length ≤ s.length := by omega
      rw [prefix_drop_append_iff tok s t j hroomj]
      exact h2 j hj
  rw [e]
  simp

example : runBytes 10 [('h' :: 'i' :: [])] = ['h', 'i'] := by decide

theorem idxOfFrom_zero_eq_some (s tok : List Char) (i : Nat)
    (h1 : tok <+: s.drop i) (h2 : ∀ j, j < i → ¬ tok <+: s.drop j) :
    idxOfFrom s tok 0 = some i := by
  simp only [idxOfFrom, List.drop_zero]
  rw [idxOfAux_eq_some_of tok s i h1 h2]
  simp

theorem idxOfFrom_zero_eq_none (s tok : List Char)
    (h : ∀ j, ¬ tok <+: s.drop j) : idxOfFrom s tok 0 = none := by
  cases hx : idxOfFrom s tok 0 with
  | none => rfl
  | some i => exact absurd (idxOfFrom_zero_some s tok i hx).1 (h i)

theorem drop_drop_eq (l : List Char) (a b n : Nat) (h : a + b = n) :
    (l.drop a).drop b = l.drop n := by
  rw [List.drop_drop]
  congr 1

/-! ## Simulation lemmas for the token scanner (claim C2) -/

theorem seedOf_empty (cfg : ScanCfg)
    (hseed : cfg.startIncluded = false ∨ cfg.startToken = [] ∨ cfg.stopToken = [])
    (hstop : cfg.stopToken ≠ []) : seedOf cfg = [] := by
  unfold seedOf
  rcases hseed with h | h | h
  · rw [if_neg (fun hc => by rw [h] at hc; cases hc.2)]
  · rw [if_neg (fun hc => hc.1 h)]
  · exact absurd h hstop

theorem seedOf_length (cfg : ScanCfg) : (seedOf cfg).length ≤ cfg.startToken.length := by
  unfold seedOf
  split
  · exact Nat.le_refl _
  · simp

theorem AfterStart_length (cfg : ScanCfg) (p rest : List Char)
    (h : AfterStart cfg p rest) : rest.length ≤ p.length := by
  rcases h with ⟨_, rfl⟩ | ⟨_, i, _, rfl⟩
  · exact Nat.le_refl _
  · simp

theorem AfterStart_append (cfg : ScanCfg) (p rest c : List Char)
    (h : AfterStart cfg p rest) : AfterStart cfg (p ++ c) (rest ++ c) := by
  rcases h with ⟨h1, rfl⟩ | ⟨h1, i, hidx, rfl⟩
  · exact Or.inl ⟨h1, rfl⟩
  · refine Or.inr ⟨h1, i, idxOfFrom_zero_append p c cfg.startToken i hidx, ?_⟩
    have hroom : i + cfg.startToken.length ≤ p.length := idxOfFrom_zero_bound p _ i hidx
    rw [List.drop_append_of_le_length hroom]

/-- Extending already-excluded start-token positions over an append. -/
theorem phaseA_lift (tok p c : List Char) (d : Nat)
    (hm : ∀ m, m < d → m + tok.length ≤ p.length ∧ ¬ tok <+: p.drop m) :
    ∀ m, m < d → m + tok.length ≤ (p ++ c).length ∧ ¬ tok <+: (p ++ c).drop m := by
  intro m hmd
  obtain ⟨h1, h2⟩ := hm m hmd
  refine ⟨by simp; omega, ?_⟩
  rw [prefix_drop_append_iff tok p c m h1]
  exact h2

/-- A start-token hit inside the clipped buffer is the global first
occurrence. -/
theorem firstOcc_of_phaseA (tok p' : List Char) (d q : Nat)
    (hm : ∀ m, m < d → ¬ tok <+: p'.drop m)
    (hq : idxOfFrom (p'.drop d) tok 0 = some q) :
    idxOfFrom p' tok 0 = some (d + q) := by
  obtain ⟨h1, h2⟩ := idxOfFrom_zero_some _ _ _ hq
  rw [drop_drop_eq p' d q (d + q) rfl] at h1
  apply idxOfFrom_zero_eq_some
  · exact h1
  · intro j hj
    by_cases hjd : j < d
    · exact hm j hjd
    · have hj2 := h2 (j - d) (by omega)
      rw [drop_drop_eq p' d (j - d) j (by omega)] at hj2
      exact hj2

/-- After a failed start-token search the `substr(1 - L)` clip keeps the
buffer a drop of the stream, and every dropped position is still known to
hold no full start-token occurrence. -/
theorem clip_phaseA (tok p' : List Char) (d : Nat)
    (htok : tok ≠ [])
    (hd : d ≤ p'.length)
    (hm : ∀ m, m < d → m + tok.length ≤ p'.length ∧ ¬ tok <+: p'.drop m)
    (hq : idxOfFrom (p'.drop d) tok 0 = none) :
    ∃ d', d' ≤ p'.length ∧
      jsSubstrFrom (p'.drop d) (1 - (tok.length : Int)) = p'.drop d' ∧
      ∀ m, m < d' → m + tok.length ≤ p'.length ∧ ¬ tok <+: p'.drop m := by
  have hnone : ∀ j, ¬ tok <+: (p'.drop d).drop j := idxOfFrom_zero_none _ _ hq
  have hL1 : 1 ≤ tok.length := by
    cases tok with
    | nil => exact absurd rfl htok
    | cons a t => simp
  unfold jsSubstrFrom
  by_cases hL : (1 : Int) - (tok.length : Int) < 0
  · rw [if_pos hL]
    set k := (max (((p'.drop d).length : Int) + (1 - (tok.length : Int))) 0).toNat with hk
    refine ⟨d + k, ?_, drop_drop_eq p' d k (d + k) rfl, ?_⟩
    · have : k ≤ (p'.drop d).length := by
        simp only [hk, List.length_drop]
        omega
      simp only [List.length_drop] at this
      omega
    · intro m hmd'
      by_cases hmd : m < d
      · exact hm m hmd
      · have hkpos : 0 < k := by omega
        have hkval : (k : Int) = ((p'.drop d).length : Int) + 1 - (tok.length : Int) := by
          simp only [hk]
          omega
        simp only [List.length_drop] at hkval
        constructor
        · omega
        · have := hnone (m - d)
          rw [drop_drop_eq p' d (m - d) m (by omega)] at this
          exact this
  · rw [if_neg hL]
    have hL1' : tok.length = 1 := by omega
    have : ((1 : Int) - (tok.length : Int)).toNat = 0 := by omega
    rw [this, List.drop_zero]
    refine ⟨d, hd, rfl, hm⟩

/-- Soundness of the stop-search floor: positions below it hold no full
stop-token occurrence, even after appending data. -/
theorem floor_sound (stop oldRet add : List Char) (fl : Int)
    (hnocc : ∀ m, ¬ stop <+: oldRet.drop m)
    (hfl : fl ≤ (oldRet.length : Int) - (stop.length : Int) ∨ fl ≤ 0) :
    ∀ m, m < fl.toNat → ¬ stop <+: (oldRet ++ add).drop m := by
  intro m hm
  have hflpos : 0 < fl := by omega
  have hfl' : fl ≤ (oldRet.length : Int) - (stop.length : Int) := by
    rcases hfl with h | h
    · exact h
    · omega
  have hroom : m + stop.length ≤ oldRet.length := by omega
  rw [prefix_drop_append_iff stop oldRet add m hroom]
  exact hnocc m

/-! ### Branch lemmas for `processChunk` and `afterStartStep` -/

theorem processChunk_skip (cfg : ScanCfg) (st : ScanState) (c : List Char) (force : Bool)
    (h : st.destroyed = true ∧ st.buf = []) :
    processChunk cfg st c force = st := by
  simp only [processChunk]
  rw [if_pos h]

theorem processChunk_buffer (cfg : ScanCfg) (st : ScanState) (c : List Char) (force : Bool)
    (h0 : ¬ (st.destroyed = true ∧ st.buf = []))
    (h1 : (st.buf ++ c).length < cfg.cbs ∧ force = false) :
    processChunk cfg st c force = { st with buf := st.buf ++ c } := by
  simp only [processChunk]
  rw [if_neg h0, if_pos h1]

theorem processChunk_clip (cfg : ScanCfg) (st : ScanState) (c : List Char) (force : Bool)
    (h0 : ¬ (st.destroyed = true ∧ st.buf = []))
    (h1 : ¬ ((st.buf ++ c).length < cfg.cbs ∧ force = false))
    (h2 : st.startFound = false)
    (h3 : idxOfFrom (st.buf ++ c) cfg.startToken 0 = none) :
    processChunk cfg st c force
      = { st with buf := jsSubstrFrom (st.buf ++ c) (1 - (cfg.startToken.length : Int)) } := by
  simp only [processChunk]
  rw [if_neg h0, if_neg h1, if_pos ⟨h2, by rw [h3]; rfl⟩]

theorem processChunk_stepB (cfg : ScanCfg) (st : ScanState) (c : List Char) (force : Bool)
    (h0 : ¬ (st.destroyed = true ∧ st.buf = []))
    (h1 : ¬ ((st.buf ++ c).length < cfg.cbs ∧ force = false))
    (h2 : st.startFound = true) :
    processChunk cfg st c force
      = afterStartStep cfg st.destroyed st.minStop st.ret (st.buf ++ c) := by
  simp only [processChunk]
  rw [if_neg h0, if_neg h1,
    if_neg (show ¬ (st.startFound = false ∧ (idxOfFrom (st.buf ++ c) cfg.startToken 0).isNone)
      from fun hc => by rw [h2] at hc; cases hc.1)]
  simp only [h2, if_true]

theorem processChunk_stepA (cfg : ScanCfg) (st : ScanState) (c : List Char) (force : Bool)
    (i : Nat)
    (h0 : ¬ (st.destroyed = true ∧ st.buf = []))
    (h1 : ¬ ((st.buf ++ c).length < cfg.cbs ∧ force = false))
    (h2 : st.startFound = false)
    (h3 : idxOfFrom (st.buf ++ c) cfg.startToken 0 = some i) :
    processChunk cfg st c force
      = afterStartStep cfg st.destroyed
          (if cfg.startIncluded then (cfg.startToken.length : Int) else st.minStop)
          (if cfg.startIncluded then cfg.startToken else st.ret)
          ((st.buf ++ c).drop (i + cfg.startToken.length)) := by
  simp only [processChunk]
  rw [if_neg h0, if_neg h1,
    if_neg (show ¬ (st.startFound = false ∧ (idxOfFrom (st.buf ++ c) cfg.startToken 0).isNone)
      from fun hc => by rw [h3] at hc; exact Bool.noConfusion hc.2)]
  rw [h3]
  simp only [h2, Bool.false_eq_true, if_false]

theorem afterStartStep_noStop (cfg : ScanCfg) (d0 : Bool) (ms1 : Int) (ret1 buf1 : List Char)
    (hstop : cfg.stopToken = []) :
    afterStartStep cfg d0 ms1 ret1 buf1 = budgetStep cfg d0 ms1 (ret1 ++ buf1) := by
  simp only [afterStartStep]
  rw [if_neg (by simp [hstop])]

theorem afterStartStep_found (cfg : ScanCfg) (d0 : Bool) (ms1 : Int) (ret1 buf1 : List Char)
    (j : Nat) (hstop : cfg.stopToken ≠ [])
    (hj : idxOfFrom (ret1 ++ buf1) cfg.stopToken ms1.toNat = some j) :
    afterStartStep cfg d0 ms1 ret1 buf1
      = { destroyed := true, startFound := true, minStop := ms1, buf := [],
          ret := (ret1 ++ buf1).take
            (min (j + (if cfg.stopIncluded then cfg.stopToken.length else 0)) cfg.maxSize) } := by
  simp only [afterStartStep]
  rw [if_pos hstop, hj]

theorem afterStartStep_notFound (cfg : ScanCfg) (d0 : Bool) (ms1 : Int) (ret1 buf1 : List Char)
    (hstop : cfg.stopToken ≠ [])
    (hj : idxOfFrom (ret1 ++ buf1) cfg.stopToken ms1.toNat = none) :
    afterStartStep cfg d0 ms1 ret1 buf1
      = budgetStep cfg d0 (((ret1 ++ buf1).length : Int) - (cfg.stopToken.length : Int))
          (ret1 ++ buf1) := by
  simp only [afterStartStep]
  rw [if_pos hstop, hj]

theorem budgetStep_live (cfg : ScanCfg) (d0 : Bool) (ms : Int) (ret2 : List Char)
    (h : ret2.length < cfg.maxSize) :
    budgetStep cfg d0 ms ret2
      = { destroyed := d0, startFound := true, minStop := ms, buf := [], ret := ret2 } := by
  unfold budgetStep
  rw [if_pos h]

/-! ### Closed-form (`tokenScanSpec`) equations -/

theorem spec_startNone (cfg : ScanCfg) (p : List Char)
    (h1 : cfg.startToken ≠ []) (h : idxOfFrom p cfg.startToken 0 = none) :
    tokenScanSpec cfg p = [] := by
  unfold tokenScanSpec
  rw [if_neg h1, h]
  rfl

theorem spec_noStop (cfg : ScanCfg) (p rest : List Char)
    (hstop : cfg.stopToken = []) (h : AfterStart cfg p rest) :
    tokenScanSpec cfg p = seedOf cfg ++ rest := by
  unfold tokenScanSpec
  rcases h with ⟨h1, rfl⟩ | ⟨h1, i, hidx, rfl⟩
  · rw [if_pos h1]
    simp [hstop]
  · rw [if_neg h1, hidx]
    simp [hstop]

theorem spec_stopFound (cfg : ScanCfg) (p rest : List Char) (j : Nat)
    (hstop : cfg.stopToken ≠ []) (hsd : seedOf cfg = [])
    (h : AfterStart cfg p rest)
    (hj : idxOfFrom rest cfg.stopToken 0 = some j) :
    tokenScanSpec cfg p
      = rest.take (j + (if cfg.stopIncluded then cfg.stopToken.length else 0)) := by
  unfold tokenScanSpec
  rcases h with ⟨h1, rfl⟩ | ⟨h1, i, hidx, rfl⟩
  · rw [if_pos h1]
    simp only [hsd, List.nil_append, List.length_nil]
    rw [if_neg hstop, hj]
  · rw [if_neg h1, hidx]
    simp only [Option.map_some', hsd, List.nil_append, List.length_nil]
    rw [if_neg hstop, hj]

theorem spec_stopNone (cfg : ScanCfg) (p rest : List Char)
    (hstop : cfg.stopToken ≠ []) (hsd : seedOf cfg = [])
    (h : AfterStart cfg p rest)
    (hj : idxOfFrom rest cfg.stopToken 0 = none) :
    tokenScanSpec cfg p = rest := by
  unfold tokenScanSpec
  rcases h with ⟨h1, rfl⟩ | ⟨h1, i, hidx, rfl⟩
  · rw [if_pos h1]
    simp only [hsd, List.nil_append, List.length_nil]
    rw [if_neg hstop, hj]
  · rw [if_neg h1, hidx]
    simp only [Option.map_some', hsd, List.nil_append, List.length_nil]
    rw [if_neg hstop, hj]

/-- One `_processChunk` invocation preserves the simulation invariant, and a
forced pass leaves the closed-form result in `retHtml`. -/
theorem processChunk_inv (cfg : ScanCfg) (st : ScanState) (p c : List Char) (force : Bool)
    (hb : cfg.startToken.length + (p ++ c).length < cfg.maxSize)
    (hseed : cfg.startIncluded = false ∨ cfg.startToken = [] ∨ cfg.stopToken = [])
    (hinv : ScanInv cfg st p) :
    ScanInv cfg (processChunk cfg st c force) (p ++ c) ∧
      (force = true → (processChunk cfg st c force).ret = tokenScanSpec cfg (p ++ c)) := by
  rcases hinv with ⟨hA1, hA2, hA3, hA4, hA5, d, hd, hbufA, hm⟩ |
    ⟨hB1, hB2, rest, r, hAS, hr, hret, hbufB, hstopInv⟩ | ⟨hT1, hT2, hT3⟩
  · -- Phase A: start token not yet found
    have h0 : ¬ (st.destroyed = true ∧ st.buf = []) := fun hc => by rw [hA3] at hc; cases hc.1
    by_cases hth : (st.buf ++ c).length < cfg.cbs ∧ force = false
    · rw [processChunk_buffer cfg st c force h0 hth]
      refine ⟨Or.inl ⟨hA1, hA2, hA3, hA4, hA5, d, ?_, ?_, phaseA_lift _ _ _ _ hm⟩, ?_⟩
      · simp
        omega
      · show st.buf ++ c = (p ++ c).drop d
        rw [hbufA, List.drop_append_of_le_length hd]
      · intro hforce
        rw [hforce] at hth
        exact absurd hth.2 (by simp)
    · have hbuf0 : st.buf ++ c = (p ++ c).drop d := by
        rw [hbufA, List.drop_append_of_le_length hd]
      have hd' : d ≤ (p ++ c).length := by
        simp
        omega
      cases hidx : idxOfFrom (st.buf ++ c) cfg.startToken 0 with
      | none =>
        rw [processChunk_clip cfg st c force h0 hth hA2 hidx]
        rw [hbuf0] at hidx
        obtain ⟨d2, hd2, hsub, hm2⟩ :=
          clip_phaseA cfg.startToken (p ++ c) d hA1 hd' (phaseA_lift _ _ _ _ hm) hidx
        refine ⟨Or.inl ⟨hA1, hA2, hA3, hA4, hA5, d2, hd2, ?_, hm2⟩, ?_⟩
        · show jsSubstrFrom (st.buf ++ c) _ = _
          rw [hbuf0, hsub]
        · intro _
          show st.ret = _
          rw [hA4]
          symm
          apply spec_startNone cfg (p ++ c) hA1
          apply idxOfFrom_zero_eq_none
          intro j
          by_cases hjd : j < d
          · exact ((phaseA_lift _ _ _ _ hm) j hjd).2
          · have hj2 := idxOfFrom_zero_none _ _ hidx (j - d)
            rw [drop_drop_eq (p ++ c) d (j - d) j (by omega)] at hj2
            exact hj2
      | some i =>
        rw [processChunk_stepA cfg st c force i h0 hth hA2 hidx]
        rw [hbuf0] at hidx
        have hglob : idxOfFrom (p ++ c) cfg.startToken 0 = some (d + i) :=
          firstOcc_of_phaseA cfg.startToken (p ++ c) d i
            (fun m hmd => ((phaseA_lift _ _ _ _ hm) m hmd).2) hidx
        have hAS' : AfterStart cfg (p ++ c) ((p ++ c).drop (d + i + cfg.startToken.length)) :=
          Or.inr ⟨hA1, d + i, hglob, rfl⟩
        set rest' := (p ++ c).drop (d + i + cfg.startToken.length) with hrestdef
        have hbuf1 : (st.buf ++ c).drop (i + cfg.startToken.length) = rest' := by
          rw [hbuf0]
          exact drop_drop_eq (p ++ c) d (i + cfg.startToken.length) _ (by omega)
        have hrestlen : rest'.length ≤ (p ++ c).length := AfterStart_length cfg _ _ hAS'
        have hret1 : (if cfg.startIncluded then cfg.startToken else st.ret) = seedOf cfg := by
          unfold seedOf
          cases hinc : cfg.startIncluded with
          | false => simp [hA4]
          | true => simp [hA1]
        rw [hbuf1, hret1]
        by_cases hstop : cfg.stopToken = []
        · rw [afterStartStep_noStop _ _ _ _ _ hstop]
          have hlen : (seedOf cfg ++ rest').length < cfg.maxSize := by
            have := seedOf_length cfg
            simp only [List.length_append]
            omega
          rw [budgetStep_live _ _ _ _ hlen]
          refine ⟨Or.inr (Or.inl ⟨rfl, hA3, rest', rest'.length, hAS', Nat.le_refl _, ?_, ?_, ?_⟩),
            ?_⟩
          · show seedOf cfg ++ rest' = seedOf cfg ++ rest'.take rest'.length
            rw [List.take_length]
          · show ([] : List Char) = rest'.drop rest'.length
            rw [List.drop_length]
          · exact fun hc => absurd hstop hc
          · intro _
            show seedOf cfg ++ rest' = _
            symm
            exact spec_noStop cfg (p ++ c) rest' hstop hAS'
        · have hsd := seedOf_empty cfg hseed hstop
          have hinc : cfg.startIncluded = false := by
            rcases hseed with h | h | h
            · exact h
            · exact absurd h hA1
            · exact absurd h hstop
          have hms : (if cfg.startIncluded then (cfg.startToken.length : Int) else st.minStop)
              = 0 := by
            rw [hinc]
            simp [hA5]
          rw [hsd, hms]
          cases hj : idxOfFrom rest' cfg.stopToken 0 with
          | some j =>
            rw [afterStartStep_found cfg st.destroyed 0 [] rest' j hstop (by simpa using hj)]
            have hjb := idxOfFrom_zero_bound rest' cfg.stopToken j hj
            have hoff : j + (if cfg.stopIncluded then cfg.stopToken.length else 0)
                ≤ rest'.length := by
              split <;> omega
            have hmin : min (j + (if cfg.stopIncluded then cfg.stopToken.length else 0))
                cfg.maxSize = j + (if cfg.stopIncluded then cfg.stopToken.length else 0) :=
              Nat.min_eq_left (by omega)
            refine ⟨Or.inr (Or.inr ⟨rfl, rfl, ?_⟩), ?_⟩
            · intro f
              have hAS2 := AfterStart_append cfg (p ++ c) rest' f hAS'
              have hj2 := idxOfFrom_zero_append rest' f cfg.stopToken j hj
              rw [spec_stopFound cfg _ _ j hstop (by exact hsd) hAS2 hj2]
              show (rest' ++ f).take _ = ([] ++ rest').take _
              rw [List.nil_append, hmin, List.take_append_of_le_length hoff]
            · intro _
              show ([] ++ rest').take _ = _
              rw [spec_stopFound cfg (p ++ c) rest' j hstop hsd hAS' hj, List.nil_append, hmin]
          | none =>
            rw [afterStartStep_notFound cfg st.destroyed 0 [] rest' hstop (by simpa using hj)]
            have hlen : (([] : List Char) ++ rest').length < cfg.maxSize := by
              rw [List.nil_append]
              omega
            rw [budgetStep_live _ _ _ _ hlen]
            refine ⟨Or.inr (Or.inl ⟨rfl, hA3, rest', rest'.length, hAS', Nat.le_refl _, ?_, ?_,
              ?_⟩), ?_⟩
            · show ([] : List Char) ++ rest' = seedOf cfg ++ rest'.take rest'.length
              rw [hsd, List.take_length]
            · show ([] : List Char) = rest'.drop rest'.length
              rw [List.drop_length]
            · intro _
              constructor
              · intro m
                show ¬ cfg.stopToken <+: (([] : List Char) ++ rest').drop m
                rw [List.nil_append]
                exact idxOfFrom_zero_none rest' cfg.stopToken hj m
              · exact Or.inl (le_refl _)
            · intro _
              show ([] : List Char) ++ rest' = _
              rw [List.nil_append]
              symm
              exact spec_stopNone cfg (p ++ c) rest' hstop hsd hAS' hj
  · -- Phase B: start found, live
    have h0 : ¬ (st.destroyed = true ∧ st.buf = []) := fun hc => by rw [hB2] at hc; cases hc.1
    by_cases hth : (st.buf ++ c).length < cfg.cbs ∧ force = false
    · rw [processChunk_buffer cfg st c force h0 hth]
      refine ⟨Or.inr (Or.inl ⟨hB1, hB2, rest ++ c, r, AfterStart_append cfg p rest c hAS, ?_,
        ?_, ?_, ?_⟩), ?_⟩
      · simp
        omega
      · show st.ret = seedOf cfg ++ (rest ++ c).take r
        rw [hret, List.take_append_of_le_length hr]
      · show st.buf ++ c = (rest ++ c).drop r
        rw [hbufB, List.drop_append_of_le_length hr]
      · exact hstopInv
      · intro hforce
        rw [hforce] at hth
        exact absurd hth.2 (by simp)
    · rw [processChunk_stepB cfg st c force h0 hth hB1]
      have hret2 : st.ret ++ (st.buf ++ c) = seedOf cfg ++ (rest ++ c) := by
        rw [hret, hbufB, List.append_assoc, ← List.append_assoc (rest.take r),
          List.take_append_drop]
      have hAS' := AfterStart_append cfg p rest c hAS
      have hrestlen : (rest ++ c).length ≤ (p ++ c).length := AfterStart_length cfg _ _ hAS'
      by_cases hstop : cfg.stopToken = []
      · rw [afterStartStep_noStop _ _ _ _ _ hstop, hret2]
        have hlen : (seedOf cfg ++ (rest ++ c)).length < cfg.maxSize := by
          have := seedOf_length cfg
          rw [List.length_append]
          omega
        rw [budgetStep_live _ _ _ _ hlen]
        refine ⟨Or.inr (Or.inl ⟨rfl, hB2, rest ++ c, (rest ++ c).length, hAS', Nat.le_refl _,
          ?_, ?_, ?_⟩), ?_⟩
        · show seedOf cfg ++ (rest ++ c) = seedOf cfg ++ (rest ++ c).take (rest ++ c).length
          rw [List.take_length]
        · show ([] : List Char) = (rest ++ c).drop (rest ++ c).length
          rw [List.drop_length]
        · exact fun hc => absurd hstop hc
        · intro _
          symm
          exact spec_noStop cfg (p ++ c) (rest ++ c) hstop hAS'
      · have hsd := seedOf_empty cfg hseed hstop
        have hret2' : st.ret ++ (st.buf ++ c) = rest ++ c := by
          rw [hret2, hsd, List.nil_append]
        obtain ⟨hnocc, hfl⟩ := hstopInv hstop
        have hfloor : ∀ m, m < st.minStop.toNat →
            ¬ cfg.stopToken <+: (st.ret ++ (st.buf ++ c)).drop m :=
          floor_sound cfg.stopToken st.ret (st.buf ++ c) st.minStop hnocc hfl
        cases hj : idxOfFrom (st.ret ++ (st.buf ++ c)) cfg.stopToken st.minStop.toNat with
        | some j =>
          rw [afterStartStep_found cfg st.destroyed st.minStop st.ret (st.buf ++ c) j hstop hj]
          obtain ⟨hjf, hjpre, hjmin⟩ := idxOfFrom_some _ _ _ _ hj
          have hjzero : idxOfFrom (st.ret ++ (st.buf ++ c)) cfg.stopToken 0 = some j := by
            apply idxOfFrom_zero_eq_some _ _ _ hjpre
            intro m hmj
            by_cases hmf : m < st.minStop.toNat
            · exact hfloor m hmf
            · exact hjmin m (by omega) hmj
          rw [hret2'] at hjzero
          have hjb := idxOfFrom_zero_bound (rest ++ c) cfg.stopToken j hjzero
          have hoff : j + (if cfg.stopIncluded then cfg.stopToken.length else 0)
              ≤ (rest ++ c).length := by
            split <;> omega
          have hmin : min (j + (if cfg.stopIncluded then cfg.stopToken.length else 0))
              cfg.maxSize = j + (if cfg.stopIncluded then cfg.stopToken.length else 0) := by
            apply Nat.min_eq_left
            omega
          refine ⟨Or.inr (Or.inr ⟨rfl, rfl, ?_⟩), ?_⟩
          · intro f
            have hAS2 := AfterStart_append cfg (p ++ c) (rest ++ c) f hAS'
            have hj2 := idxOfFrom_zero_append (rest ++ c) f cfg.stopToken j hjzero
            rw [spec_stopFound cfg _ _ j hstop hsd hAS2 hj2]
            show ((rest ++ c) ++ f).take _ = (st.ret ++ (st.buf ++ c)).take _
            rw [hret2', hmin, List.take_append_of_le_length hoff]
          · intro _
            rw [spec_stopFound cfg (p ++ c) (rest ++ c) j hstop hsd hAS' hjzero]
            show (st.ret ++ (st.buf ++ c)).take _ = _
            rw [hret2', hmin]
        | none =>
          rw [afterStartStep_notFound cfg st.destroyed st.minStop st.ret (st.buf ++ c) hstop hj]
          have hlen : (st.ret ++ (st.buf ++ c)).length < cfg.maxSize := by
            rw [hret2']
            omega
          rw [budgetStep_live _ _ _ _ hlen]
          have hjzero : idxOfFrom (st.ret ++ (st.buf ++ c)) cfg.stopToken 0 = none := by
            apply idxOfFrom_zero_eq_none
            intro m
            by_cases hmf : m < st.minStop.toNat
            · exact hfloor m hmf
            · exact idxOfFrom_none _ _ _ hj m (by omega)
          rw [hret2'] at hjzero
          refine ⟨Or.inr (Or.inl ⟨rfl, hB2, rest ++ c, (rest ++ c).length, hAS', Nat.le_refl _,
            ?_, ?_, ?_⟩), ?_⟩
          · show st.ret ++ (st.buf ++ c) = seedOf cfg ++ (rest ++ c).take (rest ++ c).length
            rw [hret2', hsd, List.nil_append, List.take_length]
          · show ([] : List Char) = (rest ++ c).drop (rest ++ c).length
            rw [List.drop_length]
          · intro _
            constructor
            · intro m
              show ¬ cfg.stopToken <+: (st.ret ++ (st.buf ++ c)).drop m
              rw [hret2']
              exact idxOfFrom_zero_none (rest ++ c) cfg.stopToken hjzero m
            · exact Or.inl (le_refl _)
          · intro _
            show st.ret ++ (st.buf ++ c) = _
            rw [hret2']
            symm
            exact spec_stopNone cfg (p ++ c) (rest ++ c) hstop hsd hAS' hjzero
  · -- terminal: destroyed, output already fixed
    rw [processChunk_skip cfg st c force ⟨hT1, hT2⟩]
    refine ⟨Or.inr (Or.inr ⟨hT1, hT2, ?_⟩), ?_⟩
    · intro f
      rw [List.append_assoc]
      exact hT3 (c ++ f)
    · intro _
      exact (hT3 c).symm

/-- The initial scanner state satisfies the invariant for the empty prefix. -/
theorem scanInv_init (cfg : ScanCfg) : ScanInv cfg (initState cfg) [] := by
  by_cases h : cfg.startToken = []
  · right
    left
    refine ⟨by simp [initState, h], rfl, [], 0, Or.inl ⟨h, rfl⟩, by simp, ?_, by simp [initState],
      ?_⟩
    · show ([] : List Char) = seedOf cfg ++ List.take 0 []
      simp [seedOf, h]
    · intro hstop
      refine ⟨?_, Or.inr (by simp [initState])⟩
      intro m hc
      rw [show (initState cfg).ret = ([] : List Char) from rfl, List.drop_nil,
        List.prefix_nil] at hc
      exact hstop hc
  · left
    refine ⟨h, ?_, rfl, rfl, rfl, 0, by simp, by simp [initState], ?_⟩
    · show cfg.startToken.isEmpty = false
      cases hx : cfg.startToken with
      | nil => exact absurd hx h
      | cons a t => rfl
    · intro m hm
      omega

/-- Folding any chunk sequence through `_processChunk` preserves the
invariant. -/
theorem scanInv_foldl (cfg : ScanCfg)
    (hseed : cfg.startIncluded = false ∨ cfg.startToken = [] ∨ cfg.stopToken = []) :
    ∀ (cs : List (List Char)) (st : ScanState) (p : List Char),
      ScanInv cfg st p →
      cfg.startToken.length + (p ++ cs.flatten).length < cfg.maxSize →
      ScanInv cfg (cs.foldl (fun s c => processChunk cfg s c false) st) (p ++ cs.flatten) := by
  intro cs
  induction cs with
  | nil =>
    intro st p h hb
    simpa using h
  | cons c cs ih =>
    intro st p h hb
    simp only [List.foldl_cons, List.flatten_cons]
    have hlen : (p ++ (c ++ cs.flatten)).length = ((p ++ c) ++ cs.flatten).length := by
      simp [List.append_assoc]
    have hb1 : cfg.startToken.length + (p ++ c).length < cfg.maxSize := by
      simp only [List.flatten_cons, List.length_append] at hb ⊢
      omega
    have h1 := (processChunk_inv cfg st p c false hb1 hseed h).1
    have h2 := ih (processChunk cfg st c false) (p ++ c) h1 (by rw [← hlen]; exact hb)
    rw [← List.append_assoc]
    exact h2

/-- With an empty pending buffer, the invariant already pins the output to
the closed form. -/
theorem scanInv_ret_of_empty_buf (cfg : ScanCfg) (st : ScanState) (body : List Char)
    (hseed : cfg.startIncluded = false ∨ cfg.startToken = [] ∨ cfg.stopToken = [])
    (hinv : ScanInv cfg st body) (hbuf : st.buf = []) :
    st.ret = tokenScanSpec cfg body := by
  rcases hinv with ⟨hA1, hA2, hA3, hA4, hA5, d, hd, hbufA, hm⟩ |
    ⟨hB1, hB2, rest, r, hAS, hr, hret, hbufB, hstopInv⟩ | ⟨hT1, hT2, hT3⟩
  · rw [hA4]
    symm
    apply spec_startNone cfg body hA1
    apply idxOfFrom_zero_eq_none
    intro j hc
    have hL1 : 1 ≤ cfg.startToken.length := by
      cases hx : cfg.startToken with
      | nil => exact absurd hx hA1
      | cons a t => simp
    have hlen := hc.length_le
    simp only [List.length_drop] at hlen
    have hjd : j < d := by
      have : body.drop d = [] := by rw [← hbufA]; exact hbuf
      have hdb : body.length ≤ d := List.drop_eq_nil_iff.mp this
      omega
    exact (hm j hjd).2 hc
  · have hrd : rest.drop r = [] := by rw [← hbufB]; exact hbuf
    have hrle : rest.length ≤ r := List.drop_eq_nil_iff.mp hrd
    have htake : rest.take r = rest := List.take_of_length_le hrle
    rw [hret, htake]
    by_cases hstop : cfg.stopToken = []
    · symm
      exact spec_noStop cfg body rest hstop hAS
    · have hsd := seedOf_empty cfg hseed hstop
      rw [hsd, List.nil_append]
      symm
      apply spec_stopNone cfg body rest hstop hsd hAS
      apply idxOfFrom_zero_eq_none
      intro j
      have := (hstopInv hstop).1 j
      rw [hret, htake, hsd, List.nil_append] at this
      exact this
  · have := hT3 []
    rw [List.append_nil] at this
    exact this.symm

/-- The token scanner computes the closed form whenever the byte budget
stays out of play. -/
theorem runToken_eq_spec (cfg : ScanCfg) (chunks : List (List Char))
    (hb : cfg.startToken.length + (chunks.flatten).length < cfg.maxSize)
    (hseed : cfg.startIncluded = false ∨ cfg.startToken = [] ∨ cfg.stopToken = []) :
    runToken cfg chunks = tokenScanSpec cfg chunks.flatten := by
  unfold runToken finishScan
  have hinv := scanInv_foldl cfg hseed chunks (initState cfg) [] (scanInv_init cfg)
    (by simpa using hb)
  simp only [List.nil_append] at hinv
  by_cases hbuf : (chunks.foldl (fun s c => processChunk cfg s c false) (initState cfg)).buf = []
  · rw [if_pos hbuf]
    exact scanInv_ret_of_empty_buf cfg _ chunks.flatten hseed hinv hbuf
  · rw [if_neg hbuf]
    have hb2 : cfg.startToken.length + (chunks.flatten ++ []).length < cfg.maxSize := by
      simpa using hb
    have := (processChunk_inv cfg _ chunks.flatten [] true hb2 hseed hinv).2 rfl
    rwa [List.append_nil] at this

/-- The byte counter under budget accumulates the whole stream. -/
theorem foldBytes_live (chunks : List (List Char)) :
    ∀ (st : ByteState), st.destroyed = false →
      ((chunks.flatten).length : Int) < st.remaining →
      chunks.foldl processChunkBytes st
        = { destroyed := false, remaining := st.remaining - (chunks.flatten).length,
            ret := st.ret ++ chunks.flatten } := by
  induction chunks with
  | nil =>
    intro st h0 h1
    cases st with
    | mk d rem ret =>
      simp at h0
      simp [h0]
  | cons c cs ih =>
    intro st h0 h1
    simp only [List.foldl_cons]
    have hstep : processChunkBytes st c
        = { destroyed := false, remaining := st.remaining - (c.length : Int),
            ret := st.ret ++ c } := by
      unfold processChunkBytes
      rw [if_neg (by rw [h0]; exact Bool.false_ne_true)]
      rw [if_neg (by simp only [List.flatten_cons, List.length_append] at h1; push_cast at h1 ⊢; omega), h0]
    rw [hstep, ih _ rfl (by simp only [List.flatten_cons, List.length_append] at h1 ⊢; push_cast at h1 ⊢; omega)]
    simp only [List.flatten_cons, List.length_append, List.append_assoc]
    congr 1
    push_cast
    ring

theorem runBytes_under_budget (maxSize : Nat) (chunks : List (List Char))
    (h : (chunks.flatten).length < maxSize) :
    runBytes maxSize chunks = chunks.flatten := by
  unfold runBytes
  rw [foldBytes_live chunks _ rfl (by show (chunks.flatten.length : Int) < (maxSize : Int); exact_mod_cast h)]
  simp

theorem join_oneByteChunks (body : List Char) : (oneByteChunks body).flatten = body := by
  induction body with
  | nil => rfl
  | cons c cs ih =>
    simp only [oneByteChunks, List.map_cons, List.flatten_cons] at ih ⊢
    rw [ih]
    rfl

/-- Helper: clipping bound of `substr(1 - L)` for `L ≥ 2`. -/
theorem jsSubstrFrom_clip_length (s : List Char) (L : Nat) (hL : 2 ≤ L) :
    (jsSubstrFrom s (1 - (L : Int))).length ≤ L - 1 := by
  unfold jsSubstrFrom
  rw [if_pos (by omega : (1 : Int) - (L : Int) < 0)]
  simp only [List.length_drop]
  omega

/-! ## Claim theorems -/

/-- **C1** (code-bug evidence): in the no-token byte-counter mode
(`scraper.js:190-205`), a single 25-byte chunk against an effective budget of
10 bytes yields the first 15 bytes of the chunk — the output exceeds the
budget and is not the first 10 bytes of the stream, because `scraper.js:199`
assigns `chunkData.substring(0, -remainingChars)` (overwriting accumulated
output with the complement-length slice) instead of appending the remaining
budget's worth. -/
theorem byteCounter_budget_overrun :
    scanOutput byteCounterCfg10 [List.replicate 25 'z'] = List.replicate 15 'z' ∧
    ¬ (scanOutput byteCounterCfg10 [List.replicate 25 'z']).length ≤ byteCounterCfg10.maxSize ∧
    scanOutput byteCounterCfg10 [List.replicate 25 'z'] ≠ (List.replicate 25 'z').take 10 := by
  decide

/-- **C3** (code-bug evidence): a gated (non-redirect, rate-limiting-enabled)
request to a host whose rate window opens at t=5000, issued at t=2000, is
rejected with the frequency-restriction error AND the HTTP exchange is still
issued: the `reject('Too frequent requests')` at `scraper.js:69` is not
followed by a `return`, so the executor falls through to
`httpOrHttps.request(...)` and `_request.end()`. -/
theorem rateLimit_reject_still_issues_exchange :
    (validateRequestToHostFrequency [("h".toList, 5000)] "h".toList 2000).1 = false ∧
    (requestPreflight false true [("h".toList, 5000)] "h".toList 2000).rejectedEarly = true ∧
    (requestPreflight false true [("h".toList, 5000)] "h".toList 2000).exchangeIssued = true := by
  decide

/-- **C4** (counterexample): for the length-1 start token `"x"`, a processing
pass whose start-token search fails leaves the whole pending buffer in place
(`substr(1 - 1) = substr(0)` is the identity), so the buffer is NOT clipped
to `startTokenLength - 1 = 0` trailing bytes: feeding the 2-byte chunk `"ab"`
leaves 2 pending bytes. -/
theorem startClip_fails_for_length_one :
    (processChunk lenOneStartCfg (initState lenOneStartCfg) ['a', 'b'] false).buf = ['a', 'b'] ∧
    ¬ (processChunk lenOneStartCfg (initState lenOneStartCfg) ['a', 'b'] false).buf.length
        ≤ lenOneStartCfg.startToken.length - 1 := by
  decide

/-- **C4** (amended): for every start token of length at least 2, whenever a
processing pass scans the pending buffer and fails to find the start token,
the resulting pending buffer is clipped to at most `startTokenLength - 1`
trailing bytes before the next chunk is appended.  (For a length-1 start
token the clip is a no-op and the buffer can grow without bound.) -/
theorem startClip_bound (cfg : ScanCfg) (st : ScanState) (chunk : List Char) (force : Bool)
    (hL : 2 ≤ cfg.startToken.length)
    (hsf : st.startFound = false)
    (hact : ¬ (st.destroyed = true ∧ st.buf = []))
    (hth : ¬ ((st.buf ++ chunk).length < cfg.cbs ∧ force = false))
    (hnone : idxOfFrom (st.buf ++ chunk) cfg.startToken 0 = none) :
    (processChunk cfg st chunk force).buf.length ≤ cfg.startToken.length - 1 := by
  simp only [processChunk]
  rw [if_neg hact, if_neg hth,
    if_pos (show st.startFound = false ∧ (idxOfFrom (st.buf ++ chunk) cfg.startToken 0).isNone
      from ⟨hsf, by rw [hnone]; rfl⟩)]
  exact jsSubstrFrom_clip_length (st.buf ++ chunk) cfg.startToken.length hL

/-- Witness for `startClip_bound` at the concrete token `"ab"` and chunk `"cd"`. -/
theorem startClip_bound_witness :
    (processChunk twoStartCfg (initState twoStartCfg) ['c', 'd'] false).buf.length
      ≤ twoStartCfg.startToken.length - 1 :=
  startClip_bound twoStartCfg (initState twoStartCfg) ['c', 'd'] false (by decide) (by decide)
    (by decide) (by decide) (by decide)

/-- **C5** (counterexample): after a failed stop-token search (stop token
`"ab"`, accumulated output `"cc"`), the stop-search floor becomes
`output.length - stopTokenLength = 0`, which differs from the claimed
`output.length - (stopTokenLength - 1) = 1`. -/
theorem stopFloor_off_by_one :
    (processChunk stopFloorCfg (initState stopFloorCfg) ['c', 'c'] false).minStop = 0 ∧
    (processChunk stopFloorCfg (initState stopFloorCfg) ['c', 'c'] false).minStop ≠
      ((processChunk stopFloorCfg (initState stopFloorCfg) ['c', 'c'] false).ret.length : Int)
        - ((stopFloorCfg.stopToken.length : Int) - 1) := by
  decide

/-- **C5** (amended): on every processing pass with a stop token configured
(start token already found) whose stop-token search finds no match, the
stop-search floor is advanced to exactly
`output.length - stopTokenLength` (`scraper.js:178`), one position lower
than the spec's `output.length - (stopTokenLength - 1)`; this still catches
tokens straddling the next chunk boundary, re-checking one already-scanned
position. -/
theorem stopFloor_advance (cfg : ScanCfg) (st : ScanState) (chunk : List Char) (force : Bool)
    (hstop : cfg.stopToken ≠ [])
    (hsf : st.startFound = true)
    (hact : ¬ (st.destroyed = true ∧ st.buf = []))
    (hth : ¬ ((st.buf ++ chunk).length < cfg.cbs ∧ force = false))
    (hnone : idxOfFrom (st.ret ++ (st.buf ++ chunk)) cfg.stopToken st.minStop.toNat = none) :
    (processChunk cfg st chunk force).minStop
      = ((st.ret ++ (st.buf ++ chunk)).length : Int) - (cfg.stopToken.length : Int) := by
  simp only [processChunk]
  rw [if_neg hact, if_neg hth,
    if_neg (show ¬ (st.startFound = false ∧ (idxOfFrom (st.buf ++ chunk) cfg.startToken 0).isNone)
      from fun hc => by rw [hsf] at hc; cases hc.1)]
  simp only [hsf, if_true]
  unfold afterStartStep
  rw [if_pos hstop]
  rw [hnone]
  split
  · rename_i j heq
    exact Option.noConfusion heq
  · unfold budgetStep
    split <;> rfl

/-- Witness for `stopFloor_advance`: stop token `"ab"`, output `"ccc"` ⇒
floor `3 - 2 = 1`. -/
theorem stopFloor_advance_witness :
    (processChunk stopFloorCfg (initState stopFloorCfg) ['c', 'c', 'c'] false).minStop
      = ((((initState stopFloorCfg).ret ++ ((initState stopFloorCfg).buf ++ ['c', 'c', 'c'])).length : Int)
          - (stopFloorCfg.stopToken.length : Int)) :=
  stopFloor_advance stopFloorCfg (initState stopFloorCfg) ['c', 'c', 'c'] false (by decide)
    (by decide) (by decide) (by decide) (by decide)

/-! ## Header-parsing lemmas (for C7 and C9) -/

theorem mem_of_head? {l : List Char} {c : Char} (h : l.head? = some c) : c ∈ l := by
  cases l with
  | nil => cases h
  | cons a t =>
    simp only [List.head?_cons, Option.some.injEq] at h
    subst h
    exact List.mem_cons_self a t

theorem mem_of_getLast? {l : List Char} {c : Char} (h : l.getLast? = some c) : c ∈ l := by
  have h1 : l.reverse.head? = some c := by rw [List.head?_reverse]; exact h
  exact List.mem_reverse.mp (mem_of_head? h1)

theorem trimLeft_eq_self (l : List Char) (h : ∀ c, l.head? = some c → isJsWs c = false) :
    trimLeft l = l := by
  cases l with
  | nil => rfl
  | cons c cs =>
    unfold trimLeft
    rw [List.dropWhile_cons, h c rfl]
    simp

theorem trimRight_eq_self (l : List Char) (h : ∀ c, l.getLast? = some c → isJsWs c = false) :
    trimRight l = l := by
  unfold trimRight
  have e : l.reverse.dropWhile isJsWs = l.reverse := by
    cases hx : l.reverse with
    | nil => simp
    | cons c cs =>
      rw [List.dropWhile_cons]
      have hc : l.getLast? = some c := by rw [← List.head?_reverse, hx]; rfl
      rw [h c hc]
      simp
  rw [e, List.reverse_reverse]

theorem jsTrim_eq_self_ends (l : List Char)
    (h1 : ∀ c, l.head? = some c → isJsWs c = false)
    (h2 : ∀ c, l.getLast? = some c → isJsWs c = false) : jsTrim l = l := by
  unfold jsTrim
  rw [trimLeft_eq_self l h1, trimRight_eq_self l h2]

theorem jsTrim_eq_self_of (l : List Char) (h : ∀ c ∈ l, isJsWs c = false) : jsTrim l = l :=
  jsTrim_eq_self_ends l (fun c hc => h c (mem_of_head? hc)) (fun c hc => h c (mem_of_getLast? hc))

theorem contains_eq_false_of_not_mem {l : List Char} {c : Char} (h : c ∉ l) :
    l.contains c = false := by
  cases hx : l.contains c
  · rfl
  · exact absurd (List.mem_of_elem_eq_true hx) h

theorem isNameChar_not_ws (c : Char) (h : isNameChar c = true) : isJsWs c = false := by
  cases hw : isJsWs c
  · rfl
  · exfalso
    simp only [isJsWs, Bool.or_eq_true, decide_eq_true_eq] at hw
    rcases hw with ((((h1 | h1) | h1) | h1) | h1) | h1 <;>
      (subst h1; exact absurd h (by decide))

theorem isNameChar_ne (c : Char) (h : isNameChar c = true) :
    c ≠ ':' ∧ c ≠ '\n' ∧ c ≠ '\r' := by
  refine ⟨fun hc => ?_, fun hc => ?_, fun hc => ?_⟩ <;> (subst hc; exact absurd h (by decide))

theorem splitAtFirstColon_append (nm v : List Char) (h : ':' ∉ nm) :
    splitAtFirstColon (nm ++ ':' :: v) = some (nm, v) := by
  induction nm with
  | nil => simp [splitAtFirstColon]
  | cons c cs ih =>
    show splitAtFirstColon (c :: (cs ++ ':' :: v)) = _
    unfold splitAtFirstColon
    rw [if_neg (show ¬ c = ':' from fun hc => h (hc ▸ List.mem_cons_self c cs))]
    rw [ih (fun hm => h (List.mem_cons_of_mem c hm))]
    rfl

theorem splitOnNl_single (l : List Char) (h : '\n' ∉ l) : splitOnNl l = [l] := by
  induction l with
  | nil => rfl
  | cons c cs ih =>
    unfold splitOnNl
    rw [if_neg (show ¬ c = '\n' from fun hc => h (hc ▸ List.mem_cons_self c cs))]
    rw [ih (fun hm => h (List.mem_cons_of_mem c hm))]

theorem mem_dropWhile_of_neg (p : Char → Bool) (l : List Char) (c : Char)
    (hc : c ∈ l) (hp : p c = false) : c ∈ l.dropWhile p := by
  have hsplit := List.takeWhile_append_dropWhile p l
  rw [← hsplit] at hc
  rcases List.mem_append.mp hc with h | h
  · have := List.mem_takeWhile_imp h
    rw [hp] at this
    simp at this
  · exact h

/-- A non-whitespace character survives `trim`. -/
theorem mem_jsTrim (l : List Char) (c : Char) (hc : c ∈ l) (hp : isJsWs c = false) :
    c ∈ jsTrim l := by
  unfold jsTrim trimRight trimLeft
  apply List.mem_reverse.mpr
  apply mem_dropWhile_of_neg _ _ _ _ hp
  apply List.mem_reverse.mpr
  exact mem_dropWhile_of_neg _ _ _ hc hp

/-- **C7** (counterexample): the line `a_b-c: v` has a name token that
contains a hyphen, yet the whole parse fails naming that exact line — the
name classes `[a-z0-9]`/`[a-z0-9-]` admit no underscore, so "any token
containing a hyphen" overstates the accepted names. -/
theorem hyphen_token_not_sufficient :
    ("a_b-c".toList).contains '-' = true ∧
    parseWgetHeaders ("a_b-c: v".toList) = .error (headerErrMsg ("a_b-c: v".toList)) := by
  decide

theorem drop_length_takeWhile (p : Char → Bool) (l : List Char) :
    l.drop (l.takeWhile p).length = l.dropWhile p := by
  induction l with
  | nil => rfl
  | cons a t ih =>
    rw [List.takeWhile_cons, List.dropWhile_cons]
    cases h : p a
    · simp
    · simpa using ih

theorem takeWhile_append_cons_neg (p : Char → Bool) (a : List Char) (x : Char) (y : List Char)
    (ha : ∀ c ∈ a, p c = true) (hx : p x = false) :
    (a ++ x :: y).takeWhile p = a := by
  induction a with
  | nil =>
    rw [List.nil_append, List.takeWhile_cons, hx]
    rfl
  | cons c cs ih =>
    rw [List.cons_append, List.takeWhile_cons, ha c (List.mem_cons_self c cs)]
    rw [ih (fun d hd => ha d (List.mem_cons_of_mem c hd))]
    rfl

theorem contains_iff_mem {l : List Char} {c : Char} : l.contains c = true ↔ c ∈ l :=
  ⟨List.mem_of_elem_eq_true, List.elem_eq_true_of_mem⟩

theorem isEmpty_eq_false_of_ne {l : List Char} (h : l ≠ []) : l.isEmpty = false := by
  cases l with
  | nil => exact absurd rfl h
  | cons a t => rfl

theorem ne_of_isEmpty_eq_false {l : List Char} (h : l.isEmpty = false) : l ≠ [] := by
  intro he
  rw [he] at h
  cases h

/-- The `[a-z0-9]+?-[a-z0-9-]+?` alternative, declaratively: exactly the
decompositions into a nonempty alphanumeric run, a hyphen, and a nonempty
alphanumeric/hyphen run. -/
theorem hyphenNameMatches_iff (l : List Char) :
    hyphenNameMatches l = true ↔
      ∃ a b, (∀ c ∈ a, isAlnumLower c = true) ∧ a ≠ [] ∧ b ≠ [] ∧
        (∀ c ∈ b, isNameChar c = true) ∧ l = a ++ '-' :: b := by
  constructor
  · intro h
    unfold hyphenNameMatches at h
    simp only [Bool.and_eq_true, Bool.not_eq_true', List.isEmpty_iff] at h
    obtain ⟨hpre, hrest⟩ := h
    cases hd : l.drop (l.takeWhile isAlnumLower).length with
    | nil =>
      rw [hd] at hrest
      cases hrest
    | cons x bs =>
      rw [hd] at hrest
      split at hrest
      · rename_i bs' heq
        injection heq with hx hbs
        simp only [Bool.and_eq_true, Bool.not_eq_true', List.isEmpty_iff,
          List.all_eq_true] at hrest
        refine ⟨l.takeWhile isAlnumLower, bs', ?_, ne_of_isEmpty_eq_false hpre,
          ne_of_isEmpty_eq_false hrest.1, hrest.2, ?_⟩
        · intro c hc
          exact List.mem_takeWhile_imp hc
        · have hsplit := List.takeWhile_append_dropWhile isAlnumLower l
          rw [← drop_length_takeWhile isAlnumLower l, hd, hx, hbs] at hsplit
          exact hsplit.symm
      · cases hrest
  · rintro ⟨a, b, ha, hane, hbne, hb, rfl⟩
    unfold hyphenNameMatches
    have htw : ((a ++ '-' :: b).takeWhile isAlnumLower) = a :=
      takeWhile_append_cons_neg isAlnumLower a '-' b ha (by decide)
    simp only [htw, List.drop_left]
    simp only [Bool.and_eq_true, Bool.not_eq_true', List.all_eq_true]
    exact ⟨isEmpty_eq_false_of_ne hane, isEmpty_eq_false_of_ne hbne, hb⟩

/-- The whole name group, declaratively (whitelist plus hyphen pattern,
case-insensitively via `lowerStr`). -/
theorem nameMatches_iff (n : List Char) :
    nameMatches n = true ↔ HeaderNameSpec n := by
  unfold nameMatches HeaderNameSpec
  simp only [Bool.or_eq_true, beq_iff_eq, hyphenNameMatches_iff]

/-- Full characterization of one line against `HTTP_HEADER_LINE_REGEX`:
a line parses (to some pair) iff it has a colon, the part before the first
colon trims to a name in the name spec, and the part after it trims to a
nonempty quote-free value; the stored pair is the two trimmed parts. -/
theorem parseHeaderLine_characterization (line : List Char) (p : List Char × List Char) :
    parseHeaderLine line = some p ↔
      ∃ pre post, splitAtFirstColon line = some (pre, post) ∧
        p = (jsTrim pre, jsTrim post) ∧ HeaderNameSpec (jsTrim pre) ∧
        jsTrim post ≠ [] ∧ '"' ∉ jsTrim post := by
  unfold parseHeaderLine
  cases hs : splitAtFirstColon line with
  | none =>
    simp
  | some q =>
    show (if nameMatches (jsTrim q.1) && !(jsTrim q.2).isEmpty && !(jsTrim q.2).contains '"'
        then some (jsTrim q.1, jsTrim q.2) else none) = some p ↔
      ∃ pre post, some q = some (pre, post) ∧
        p = (jsTrim pre, jsTrim post) ∧ HeaderNameSpec (jsTrim pre) ∧
        jsTrim post ≠ [] ∧ '"' ∉ jsTrim post
    constructor
    · intro h
      by_cases hc : (nameMatches (jsTrim q.1) && !(jsTrim q.2).isEmpty
          && !(jsTrim q.2).contains '"') = true
      · rw [if_pos hc] at h
        injection h with h
        simp only [Bool.and_eq_true, Bool.not_eq_true', List.isEmpty_iff] at hc
        refine ⟨q.1, q.2, rfl, h.symm, (nameMatches_iff _).mp hc.1.1,
          ne_of_isEmpty_eq_false hc.1.2, ?_⟩
        intro hm
        rw [contains_iff_mem.mpr hm] at hc
        cases hc.2
      · rw [if_neg hc] at h
        cases h
    · rintro ⟨pre, post, hsplit, rfl, hname, hne, hq⟩
      injection hsplit with hqe
      subst hqe
      have hcond : (nameMatches (jsTrim (pre, post).1) && !(jsTrim (pre, post).2).isEmpty
          && !(jsTrim (pre, post).2).contains '"') = true := by
        simp only [Bool.and_eq_true, Bool.not_eq_true']
        exact ⟨⟨(nameMatches_iff _).mpr hname, isEmpty_eq_false_of_ne hne⟩,
          contains_eq_false_of_not_mem hq⟩
      rw [if_pos hcond]

/-- A single clean (trimmed, newline-free, nonempty) line fed to the whole
parser behaves exactly as its line-level verdict: a valid line yields its
pair, an invalid one fails the whole parse with the error naming that exact
line. -/
theorem parseWgetHeaders_single (line : List Char)
    (hn : '\n' ∉ line) (hr : '\r' ∉ line) (ht : jsTrim line = line) (hne : line ≠ []) :
    parseWgetHeaders line
      = match parseHeaderLine line with
        | some p => .ok [p]
        | none => .error (headerErrMsg line) := by
  unfold parseWgetHeaders
  have hfil : line.filter (fun c => c ≠ '\r') = line := by
    rw [List.filter_eq_self]
    intro a ha
    simp only [ne_eq, decide_eq_true_eq]
    exact fun hc => hr (hc ▸ ha)
  rw [hfil, splitOnNl_single line hn]
  simp only [List.map_cons, List.map_nil, ht]
  unfold parseWgetHeadersAux
  rw [if_neg hne]
  cases hp : parseHeaderLine line with
  | some p => rfl
  | none => rfl

/-- **C7** (amended): header parsing accepts a line iff its name — the part
before the first colon, trimmed — is `Cookie`, `Authorization`, `Accept`, or
an alphanumeric-hyphen token (a nonempty alphanumeric run, a hyphen, then a
nonempty alphanumeric/hyphen run), all case-insensitively, AND its trimmed
value is nonempty and contains no double quote (first conjunct, an iff over
all lines and pairs); a clean single-line block then parses to the pair or
fails the whole parse with the error naming that exact line (second); the
spec's two examples hold (third, fourth), and the whitelisted and
mixed-case names are accepted (fifth–seventh). -/
theorem headerParsing_amended :
    (∀ (line : List Char) (p : List Char × List Char),
      parseHeaderLine line = some p ↔
        ∃ pre post, splitAtFirstColon line = some (pre, post) ∧
          p = (jsTrim pre, jsTrim post) ∧ HeaderNameSpec (jsTrim pre) ∧
          jsTrim post ≠ [] ∧ '"' ∉ jsTrim post) ∧
    (∀ line : List Char, '\n' ∉ line → '\r' ∉ line → jsTrim line = line → line ≠ [] →
      parseWgetHeaders line
        = match parseHeaderLine line with
          | some p => .ok [p]
          | none => .error (headerErrMsg line)) ∧
    parseWgetHeaders ("x-foo: 123\nx-bar:abc".toList)
      = .ok [("x-foo".toList, "123".toList), ("x-bar".toList, "abc".toList)] ∧
    parseWgetHeaders ("baz: 666".toList) = .error (headerErrMsg ("baz: 666".toList)) ∧
    parseWgetHeaders ("Cookie: a=1".toList) = .ok [("Cookie".toList, "a=1".toList)] ∧
    parseWgetHeaders ("AuThOrIzAtIoN:tok".toList)
      = .ok [("AuThOrIzAtIoN".toList, "tok".toList)] ∧
    parseWgetHeaders ("X-Foo: 1".toList) = .ok [("X-Foo".toList, "1".toList)] :=
  ⟨parseHeaderLine_characterization, parseWgetHeaders_single, by decide, by decide, by decide,
    by decide, by decide⟩

/-- Witness for `headerParsing_amended` at the concrete line `x-a:1`. -/
theorem headerParsing_amended_witness :
    parseWgetHeaders ("x-a:1".toList)
      = match parseHeaderLine ("x-a:1".toList) with
        | some p => .ok [p]
        | none => .error (headerErrMsg ("x-a:1".toList)) :=
  headerParsing_amended.2.1 ("x-a:1".toList) (by decide) (by decide) (by decide) (by decide)

/-- **C9**: the value pattern `[^"]+?` excludes the double quote: any header
line whose post-colon part contains a `"` fails to parse even with a valid
hyphenated name (first conjunct), and concretely the block `x-foo: "bar"`
fails the whole parse with the error naming that exact line (second). -/
theorem quoted_value_rejected (nm v : List Char)
    (hq : '"' ∈ v) (hcol : ':' ∉ nm) :
    parseHeaderLine (nm ++ ':' :: v) = none ∧
    parseWgetHeaders ("x-foo: \"bar\"".toList)
      = .error (headerErrMsg ("x-foo: \"bar\"".toList)) := by
  constructor
  · unfold parseHeaderLine
    rw [splitAtFirstColon_append nm v hcol]
    simp only
    have hqv : '"' ∈ jsTrim v := mem_jsTrim v '"' hq (by decide)
    have hcont : (jsTrim v).contains '"' = true := List.elem_eq_true_of_mem hqv
    rw [hcont]
    simp
  · decide

/-- Witness for `quoted_value_rejected` at name `x-foo`, value ` "bar"`. -/
theorem quoted_value_rejected_witness :
    parseHeaderLine ("x-foo".toList ++ ':' :: " \"bar\"".toList) = none ∧
    parseWgetHeaders ("x-foo: \"bar\"".toList)
      = .error (headerErrMsg ("x-foo: \"bar\"".toList)) :=
  quoted_value_rejected "x-foo".toList " \"bar\"".toList (by decide) (by decide)

/-! ## URL-validation lemmas and claims (C6) -/

theorem endsWithPatDot_iff (pat t : List Char) :
    endsWithPatDot pat t = true ↔ ∃ u c, c ≠ '\n' ∧ t = u ++ pat ++ [c] := by
  unfold endsWithPatDot
  constructor
  · intro h
    cases hgl : t.getLast? with
    | none => rw [hgl] at h; cases h
    | some c =>
      rw [hgl] at h
      simp only [Bool.and_eq_true, decide_eq_true_eq, List.isSuffixOf_iff_suffix] at h
      rcases h with ⟨hc, u, hu⟩
      refine ⟨u, c, hc, ?_⟩
      have ht : t ≠ [] := by intro he; rw [he] at hgl; cases hgl
      have hsplit := List.dropLast_append_getLast ht
      have hcl : t.getLast ht = c := by
        rw [List.getLast?_eq_getLast t ht] at hgl
        exact (Option.some.injEq _ _).mp hgl
      rw [← hsplit, hcl, ← hu]
  · rintro ⟨u, c, hc, rfl⟩
    have e1 : (u ++ pat ++ [c]).getLast? = some c := List.getLast?_concat _
    have e2 : (u ++ pat ++ [c]).dropLast = u ++ pat := List.dropLast_concat
    rw [e1, e2]
    simp only [Bool.and_eq_true, decide_eq_true_eq, List.isSuffixOf_iff_suffix]
    exact ⟨hc, u, rfl⟩

theorem unsupportedFilenames_iff (s : List Char) :
    unsupportedFilenamesMatches s = true ↔ MediaSuffixSpec s := by
  unfold unsupportedFilenamesMatches MediaSuffixSpec
  simp only [Bool.or_eq_true, List.isSuffixOf_iff_suffix, endsWithPatDot_iff, List.IsSuffix]

theorem httpOrHttps_iff (s : List Char) :
    httpOrHttpsUrlMatches s = true ↔
      (∃ r, "http://".toList ++ r = s) ∨ (∃ r, "https://".toList ++ r = s) := by
  unfold httpOrHttpsUrlMatches
  simp only [Bool.or_eq_true, List.isPrefixOf_iff_prefix, List.IsPrefix]

/-- **C6** (counterexample): URL validation performs no confusables check —
`http://pаypal.com/` with a Cyrillic а (U+0430) in the hostname passes every
check (given it parses) — and the media-extension test applies to the whole
URL string rather than the path: `http://x.com/a.png?d=1`, whose path ends
in `.png`, is accepted, while the same URL without the query string is
rejected. -/
theorem url_validation_gaps :
    assertValidUrlOk ("http://p".toList ++ [Char.ofNat 1072] ++ "ypal.com/".toList) true = true ∧
    (Char.ofNat 1072) ∈ ("http://p".toList ++ [Char.ofNat 1072] ++ "ypal.com/".toList) ∧
    ¬ (Char.ofNat 1072).toNat < 128 ∧
    assertValidUrlOk ("http://x.com/a.png?d=1".toList) true = true ∧
    ¬ assertValidUrlOk ("http://x.com/a.png".toList) true = true := by
  decide

/-- **C6** (amended): `_assertValidUrl` accepts exactly the parseable strings
that begin with `http://` or `https://` and do not end — as whole strings,
case-insensitively — in one of the binary-media extension patterns
(`.jpg/.jpeg/.png/.gif/.gif?/.mp?/.avi/.web?`); any other URL raises
`Invalid url`.  No internationalized-domain confusables detection exists.
The same validation runs again on every redirect target: a target failing it
makes `updateForRedirect` raise `Invalid url`. -/
theorem assertValidUrl_characterization :
    (∀ (s : List Char) (p : Bool),
      assertValidUrlOk s p = true ↔
        (((∃ r, "http://".toList ++ r = s) ∨ (∃ r, "https://".toList ++ r = s)) ∧
          ¬ MediaSuffixSpec s ∧ p = true)) ∧
    (∀ (o : ScraperOptsM) (loc : List Char) (p : Bool),
      o.totalRedirects < o.maxRedirects →
      assertValidUrlOk ((if loc.head? = some '/' then o.origin else []) ++ loc) p = false →
      updateForRedirect o loc p = .error invalidUrlMsg) := by
  constructor
  · intro s p
    unfold assertValidUrlOk
    rw [Bool.and_eq_true, Bool.and_eq_true, httpOrHttps_iff, Bool.not_eq_true']
    constructor
    · rintro ⟨⟨h1, h2⟩, h3⟩
      refine ⟨h1, ?_, h3⟩
      intro hm
      rw [(unsupportedFilenames_iff s).mpr hm] at h2
      cases h2
    · rintro ⟨h1, h2, h3⟩
      refine ⟨⟨h1, ?_⟩, h3⟩
      cases hx : unsupportedFilenamesMatches s
      · rfl
      · exact absurd ((unsupportedFilenames_iff s).mp hx) h2
  · intro o loc p hlt hval
    unfold updateForRedirect
    rw [if_neg (by omega), if_neg (by rw [hval]; exact Bool.false_ne_true)]

/-- Witness for `assertValidUrl_characterization`: a redirect to an
`ftp://` target fails with `Invalid url`. -/
theorem assertValidUrl_characterization_witness :
    updateForRedirect
        { url := "http://a/x".toList, origin := "http://a".toList, maxRedirects := 1 }
        "ftp://b/".toList true = .error invalidUrlMsg :=
  assertValidUrl_characterization.2
    { url := "http://a/x".toList, origin := "http://a".toList, maxRedirects := 1 }
    "ftp://b/".toList true (by decide) (by decide)

/-! ## Redirect-chain claims (C8, C10) -/

/-- **C8**: for every `N` in the configured range 1–4, a chain of `N`
redirect responses with `maxRedirects = N` succeeds and returns the final
target's scanned fragment, while the same chain with `maxRedirects = N - 1`
fails with the redirect-budget error and yields no (partial) result. -/
theorem redirectChain_budget (N : Nat) (h1 : 1 ≤ N) (h2 : N ≤ 4) :
    fetchModel plainCfg (chainServer N demoBody) true
        { mkScraperOpts (chainUrl 0) [] with maxRedirects := N } (N + 2)
      = .ok (scanOutput plainCfg demoBody) ∧
    fetchModel plainCfg (chainServer N demoBody) true
        { mkScraperOpts (chainUrl 0) [] with maxRedirects := N - 1 } (N + 2)
      = .error (redirectLimitMsg (N - 1)) := by
  interval_cases N <;> exact ⟨by decide, by decide⟩

/-- Witness for `redirectChain_budget` at `N = 2`. -/
theorem redirectChain_budget_witness :
    fetchModel plainCfg (chainServer 2 demoBody) true
        { mkScraperOpts (chainUrl 0) [] with maxRedirects := 2 } 4
      = .ok (scanOutput plainCfg demoBody) ∧
    fetchModel plainCfg (chainServer 2 demoBody) true
        { mkScraperOpts (chainUrl 0) [] with maxRedirects := 1 } 4
      = .error (redirectLimitMsg 1) :=
  redirectChain_budget 2 (by decide) (by decide)

/-- **C10**: a freshly constructed configuration has `maxRedirects = 0`;
`withMaxRedirects` accepts exactly the integers 1–4; and with the default in
place the very first redirect response makes the fetch fail with the
redirect-limit-exceeded error. -/
theorem freshOpts_redirect_budget :
    (mkScraperOpts ("http://h/".toList) []).maxRedirects = 0 ∧
    (∀ m : Int,
      exceptAccepted (withMaxRedirects (mkScraperOpts ("http://h/".toList) []) m) = true
        ↔ (1 ≤ m ∧ m ≤ 4)) ∧
    fetchModel plainCfg (fun _ => RespM.redirect ("http://h/x".toList)) true
        (mkScraperOpts ("http://h/".toList) []) 2 = .error (redirectLimitMsg 0) := by
  refine ⟨rfl, ?_, by decide⟩
  intro m
  unfold withMaxRedirects
  split
  · rename_i h
    simp only [exceptAccepted]
    constructor
    · intro hc
      exact absurd hc (by simp)
    · intro hc
      omega
  · rename_i h
    simp only [exceptAccepted]
    constructor
    · intro _
      omega
    · intro _
      trivial

/-- Witness for `freshOpts_redirect_budget`: setting `maxRedirects := 3` is
accepted. -/
theorem freshOpts_redirect_budget_witness :
    exceptAccepted (withMaxRedirects (mkScraperOpts ("http://h/".toList) []) 3) = true :=
  (freshOpts_redirect_budget.2.1 3).mpr (by decide)

/-- **C2** (counterexample): scanning `"cccccccccab"` (stop token `"ab"`,
`maxBytes = 10`, `chunkBufferSize = 0`, so effective buffer 2) split into
1-byte chunks yields `"ccccccccca"` — the budget terminal fires at 10 bytes
before the stop token's `b` arrives — while the whole body in one chunk
yields `"ccccccccc"` (the stop token is seen and the output is cut before
it): the two runs differ. -/
theorem chunking_dependent :
    scanOutput chunkDepCfg (oneByteChunks chunkDepBody) = "ccccccccca".toList ∧
    scanOutput chunkDepCfg [chunkDepBody] = "ccccccccc".toList ∧
    scanOutput chunkDepCfg (oneByteChunks chunkDepBody)
      ≠ scanOutput chunkDepCfg [chunkDepBody] := by
  decide

/-- **C2** (amended): scanning a document split into 1-byte chunks and
scanning it whole-body-in-one-chunk yield byte-identical output PROVIDED the
effective byte budget stays out of play (start-token length plus body length
below `maxSize`) and the configuration does not combine an included start
token with a stop token (the seed regression of the stop-search floor,
`scraper.js:178`, can otherwise re-expose the seed region in the chunked run
only).  Without these provisos the outputs can differ
(`chunking_dependent`). -/
theorem scan_chunking_independent (cfg : ScanCfg) (body : List Char)
    (hb : cfg.startToken.length + body.length < cfg.maxSize)
    (hseed : cfg.startIncluded = false ∨ cfg.startToken = [] ∨ cfg.stopToken = []) :
    scanOutput cfg (oneByteChunks body) = scanOutput cfg [body] := by
  unfold scanOutput
  by_cases hmode : cfg.startToken = [] ∧ cfg.stopToken = []
  · rw [if_pos hmode, if_pos hmode]
    rw [runBytes_under_budget _ _ (by rw [join_oneByteChunks]; omega),
      runBytes_under_budget _ _ (by simp; omega)]
    rw [join_oneByteChunks]
    simp
  · rw [if_neg hmode, if_neg hmode]
    rw [runToken_eq_spec cfg _ (by rw [join_oneByteChunks]; exact hb) hseed,
      runToken_eq_spec cfg _ (by simp; omega) hseed]
    rw [join_oneByteChunks]
    simp

/-- Witness for `scan_chunking_independent`: stop token `"xy"`, body
`"hello"`, budget 100. -/
theorem scan_chunking_independent_witness :
    scanOutput indepCfg (oneByteChunks "hello".toList) = scanOutput indepCfg ["hello".toList] :=
  scan_chunking_independent indepCfg "hello".toList (by decide) (by decide)
